import Mathlib

/-!
Verification of the image-decoding and cell-rendering core of img2text.py.

Bytes are modelled as `Nat` (values 0..255 where the source guarantees it),
byte strings as `List Nat`, fallible Python code as `Except String`, and
Python `None`-returns of the loaders as `Option`.  Python float arithmetic
(`luma`, alpha blending, the ramp index, `scale_to_cells` ratios) is modelled
in exact rational / integer arithmetic; `int(x)` on a nonnegative value is
floor, written as a single `Nat` division where possible.  The zlib inflate
step of the PNG loader is Python's stdlib `zlib.decompress`, external to the
repository; it is abstracted as an `inflate` parameter.  The gamma tone curve
`int((Y/255.0)**gamma*255+0.5)` (a transcendental float function) is
abstracted as a `tone : Nat → Nat` parameter applied to the luma; `gamma=1.0`,
the default, is `tone = id`, matching the source's skip of the transform.
-/

namespace Img2Text

/-- Canonical RGBA pixel buffer: width, height and interleaved R,G,B,A bytes
(the class RGBAImage of the source). -/
structure RGBAImage where
  w : Nat
  h : Nat
  buf : List Nat
deriving Repr, DecidableEq

/-- Read the four bytes of pixel (x, y) of a buffer. -/
def getPx (img : RGBAImage) (x y : Nat) : Nat × Nat × Nat × Nat :=
  let i := (y * img.w + x) * 4
  (img.buf.getD i 0, img.buf.getD (i+1) 0, img.buf.getD (i+2) 0, img.buf.getD (i+3) 0)

/-- RGBAImage.resize_nn: nearest-neighbor resize.  Python computes the source
coordinate as int(ty * h / th) with float division; modelled as Nat division. -/
def RGBAImage.resize_nn (img : RGBAImage) (tw th : Nat) : RGBAImage :=
  let w := img.w
  let h := img.h
  let buf := (List.range th).flatMap (fun ty =>
    let sy := min (h - 1) (ty * h / th)
    (List.range tw).flatMap (fun tx =>
      let sx := min (w - 1) (tx * w / tw)
      let i := sy * w * 4 + sx * 4
      [img.buf.getD i 0, img.buf.getD (i+1) 0, img.buf.getD (i+2) 0, img.buf.getD (i+3) 0]))
  ⟨tw, th, buf⟩

/-- Rec.601 luma: int(0.299*r + 0.587*g + 0.114*b + 0.5), in exact rational
arithmetic written as one Nat division. -/
def luma (r g b : Nat) : Nat := (299 * r + 587 * g + 114 * b + 500) / 1000

/-- Alpha blend of one channel toward a white background:
int(a/255*c + (1 - a/255)*255 + 0.5), in exact rational arithmetic
(meaningful for a ≤ 255, as the source guarantees). -/
def blendChannel (a c : Nat) : Nat := (2 * a * c + 2 * (255 - a) * 255 + 255) / 510

/-- The renderers' common alpha-compositing step: blend each channel toward
white when a ≠ 255, as in the source's `if a != 255` blocks. -/
def blendPx (r g b a : Nat) : Nat × Nat × Nat :=
  if a ≠ 255 then (blendChannel a r, blendChannel a g, blendChannel a b) else (r, g, b)

def RESET : String := "\x1b[0m"

def ansi_fg (r g b : Nat) : String :=
  "\x1b[38;2;" ++ toString r ++ ";" ++ toString g ++ ";" ++ toString b ++ "m"

def ansi_bg (r g b : Nat) : String :=
  "\x1b[48;2;" ++ toString r ++ ";" ++ toString g ++ ";" ++ toString b ++ "m"

/-- paint_cell: wrap a glyph in ANSI color escapes (the renderers always pass
the luma Y explicitly, so the Y=None branch is not modelled). -/
def paint_cell (glyph : String) (r g b : Nat) (mode : String) (Y : Nat) : String :=
  if mode = "fg" then ansi_fg r g b ++ glyph ++ RESET
  else if mode = "bg" then
    let fg := if Y ≥ 150 then "30" else "97"
    ansi_bg r g b ++ "\x1b[" ++ fg ++ "m" ++ glyph ++ RESET
  else
    if Y ≥ 160 then ansi_bg r g b ++ "\x1b[30m" ++ glyph ++ RESET
    else if Y ≤ 40 then ansi_fg r g b ++ glyph ++ RESET
    else ansi_bg r g b ++ "\x1b[97m" ++ glyph ++ RESET

/-- The named character ramps of the source (braces and apostrophes written as
hex escapes). -/
def RAMPS : List (String × String) := [
  ("ascii", " .\x27\x60^,:;Il!i~+_-?][\x7d\x7b1)(|\\/tfjrxnuvczXYUJCLQ0OZmwqpdbkhao*#MW&8%B@$"),
  ("dense", " .,:;-+=*#%@"),
  ("sparse", " .\x27\x60:^*+x%#"),
  ("blocks", " ░▒▓█"),
  ("dots", " .:!*oO8@"),
  ("bars", " ▁▂▃▄▅▆▇█"),
  ("thin", " \x60\x27.,:^-=+*#%@")]

/-- RAMPS.get(ramp, ramp): a named preset or the literal string itself. -/
def rampLookup (r : String) : String :=
  match RAMPS.lookup r with
  | some s => s
  | none => r

/-- The _paeth predictor of the source: p = a + b - c, absolute distances
pa, pb, pc, and the nested conditional with ties preferring a, then b. -/
def paeth (a b c : Nat) : Nat :=
  let p : Int := (a : Int) + (b : Int) - (c : Int)
  let pa := (p - a).natAbs
  let pb := (p - b).natAbs
  let pc := (p - c).natAbs
  if pa ≤ pb ∧ pa ≤ pc then a else if pb ≤ pc then b else c

/-- One reconstructed byte of a scanline at position x = d.length, where d is
the already-reconstructed prefix of the row and prev the previous row: the
per-filter-type arithmetic of _unfilter (filter types 0..4; left and
upper-left are 0 when x < bpp). -/
def reconByte (f bpp : Nat) (s prev d : List Nat) : Nat :=
  let x := d.length
  let sx := s.getD x 0
  let left := if bpp ≤ x then d.getD (x - bpp) 0 else 0
  let up := prev.getD x 0
  let ul := if bpp ≤ x then prev.getD (x - bpp) 0 else 0
  if f = 0 then sx
  else if f = 1 then (sx + left) % 256
  else if f = 2 then (sx + up) % 256
  else if f = 3 then (sx + (left + up) / 2) % 256
  else (sx + paeth left up ul) % 256

/-- The in-place left-to-right reconstruction loop of _unfilter for one
scanline: n more bytes to produce, d the bytes written so far. -/
def unfilterRowGo (f bpp : Nat) (s prev : List Nat) : Nat → List Nat → List Nat
  | 0, d => d
  | n + 1, d => unfilterRowGo f bpp s prev n (d ++ [reconByte f bpp s prev d])

/-- Reconstruction of one filtered scanline s of stride bytes against the
previous reconstructed row. -/
def unfilterRow (f bpp : Nat) (s prev : List Nat) (stride : Nat) : List Nat :=
  unfilterRowGo f bpp s prev stride []

/-- The row loop of _unfilter: peel one filter-type byte and stride data
bytes per scanline; prev is the previous reconstructed row (all zeros before
the first scanline).  Python raises on a filter type above 4 and on running
out of input bytes (IndexError / short memoryview assignment); both are
errors here. -/
def unfilterRows (bpp stride : Nat) : Nat → List Nat → List Nat → Except String (List (List Nat))
  | 0, _, _ => .ok []
  | hrem + 1, prev, raw =>
    match raw with
    | [] => .error "IndexError: missing filter byte"
    | f :: rest =>
      if 4 < f then .error "PNG filter type not supported"
      else if rest.length < stride then .error "IndexError: short scanline"
      else
        let d := unfilterRow f bpp (rest.take stride) prev stride
        (unfilterRows bpp stride hrem d (rest.drop stride)).map (d :: ·)

/-- _unfilter: reconstruct all h scanlines of stride w*bpp bytes and
concatenate them. -/
def unfilter (raw : List Nat) (w h bpp : Nat) : Except String (List Nat) :=
  (unfilterRows bpp (w * bpp) h (List.replicate (w * bpp) 0) raw).map List.flatten

/-- The sample scaling of _unpack_bits: 1-bit to 0/255, 2-bit times 85,
4-bit times 17, other widths unchanged. -/
def scaleSample (bps val : Nat) : Nat :=
  if bps = 1 then (if val = 0 then 0 else 255)
  else if bps = 2 then val * 85
  else if bps = 4 then val * 17
  else val

/-- The bit-cursor loop of _unpack_bits: acc holds all bytes consumed so far,
nbits of its low bits are still unconsumed; stop when total samples are out
or the bytes run dry with too few bits for another sample.  Each iteration
either consumes a byte or emits a sample, so bytes + total fuel steps always
suffice. -/
def unpackGo (bps total : Nat) : Nat → List Nat → Nat → Nat → List Nat → List Nat
  | 0, _, _, _, out => out
  | fuel + 1, bytes, acc, nbits, out =>
    if total ≤ out.length then out
    else if nbits < bps then
      match bytes with
      | [] => out
      | by0 :: rest => unpackGo bps total fuel rest (acc * 256 + by0) (nbits + 8) out
    else
      unpackGo bps total fuel bytes acc (nbits - bps)
        (out ++ [scaleSample bps ((acc >>> (nbits - bps)) &&& (2 ^ bps - 1))])

/-- _unpack_bits: expand packed sub-8-bit samples to one 8-bit value each,
padding with zeros up to w*spp samples. -/
def unpack_bits (row_bytes : List Nat) (w bps spp : Nat) : List Nat :=
  let total := w * spp
  let out := unpackGo bps total (row_bytes.length + total) row_bytes 0 0 []
  out ++ List.replicate (total - out.length) 0

/-- Big-endian integer value of a byte list (struct.unpack with a > format). -/
def beNum (l : List Nat) : Nat := l.foldl (fun a b => a * 256 + b) 0

/-- The k-th bps-wide group of a byte string read as one big-endian bit
stream: the reference value of the k-th packed sample, stated independently
of the bit cursor. -/
def bitGroup (bytes : List Nat) (bps k : Nat) : Nat :=
  (beNum bytes >>> (8 * bytes.length - (k + 1) * bps)) &&& (2 ^ bps - 1)

def PNG_SIG : List Nat := [137, 80, 78, 71, 13, 10, 26, 10]

/-- _png_chunks: repeatedly read a 4-byte big-endian length, a 4-byte tag,
the payload and skip the 4-byte CRC, while 8 header bytes remain.  The loop
advances at least 12 bytes per chunk, so length-many fuel steps suffice. -/
def pngChunksGo : Nat → List Nat → List (List Nat × List Nat)
  | 0, _ => []
  | fuel + 1, b =>
    if b.length < 8 then []
    else
      let L := beNum (b.take 4)
      let t := (b.drop 4).take 4
      (t, (b.drop 8).take L) :: pngChunksGo fuel (b.drop (8 + L + 4))

/-- _png_chunks applied to a whole PNG file (the first 8 bytes are the
signature). -/
def pngChunks (b : List Nat) : List (List Nat × List Nat) :=
  pngChunksGo (b.length + 1) (b.drop 8)

/-- The chunk-accumulation state of load_png's chunk loop. -/
structure PngChunkState where
  ihdr : Option (List Nat)
  plte : Option (List Nat)
  trns : Option (List Nat)
  idat : List Nat
deriving Repr, DecidableEq

/-- load_png's chunk loop: record IHDR/PLTE/tRNS payloads, accumulate IDAT
payloads in order, stop at IEND. -/
def scanChunks : List (List Nat × List Nat) → PngChunkState → PngChunkState
  | [], st => st
  | (t, p) :: rest, st =>
    if t = [73, 72, 68, 82] then scanChunks rest { st with ihdr := some p }
    else if t = [80, 76, 84, 69] then scanChunks rest { st with plte := some p }
    else if t = [116, 82, 78, 83] then scanChunks rest { st with trns := some p }
    else if t = [73, 68, 65, 84] then scanChunks rest { st with idat := st.idat ++ p }
    else if t = [73, 69, 78, 68] then st
    else scanChunks rest st

/-- struct.unpack of the 13-byte IHDR payload: width, height, bit depth,
color type, compression, filter, interlace. -/
def parseIHDR (p : List Nat) : Except String (Nat × Nat × Nat × Nat × Nat × Nat × Nat) :=
  if p.length ≠ 13 then .error "struct.error: IHDR size"
  else .ok (beNum (p.take 4), beNum ((p.drop 4).take 4), p.getD 8 0, p.getD 9 0,
            p.getD 10 0, p.getD 11 0, p.getD 12 0)

/-- The palette list [tuple(plte[i:i+3]) for i in range(0, len(plte), 3)]:
groups of three bytes, a trailing group possibly shorter. -/
def chunk3 : List Nat → List (List Nat)
  | [] => []
  | [a] => [[a]]
  | [a, b] => [[a, b]]
  | a :: b :: c :: rest => [a, b, c] :: chunk3 rest

/-- One indexed-color pixel of load_png: palette lookup with the out-of-range
(0,0,0) fallback, transparency alpha with the out-of-range 255 fallback; a
palette entry that is not a full triple makes Python's tuple unpacking
raise. -/
def palettePixel (pal : List (List Nat)) (alpha : List Nat) (idx : Nat) :
    Except String (List Nat) :=
  match (if idx < pal.length then pal.getD idx [] else [0, 0, 0]) with
  | [r, g, b] => .ok [r, g, b, if idx < alpha.length then alpha.getD idx 0 else 255]
  | _ => .error "ValueError: bad palette entry"

/-- The x-loop of load_png's indexed-color branch over one row of sample
indices. -/
def pngPixelsP (pal : List (List Nat)) (alpha : List Nat) (smp : List Nat) :
    List Nat → Except String (List Nat)
  | [] => .ok []
  | x :: xs =>
    match palettePixel pal alpha (smp.getD x 0) with
    | .error e => .error e
    | .ok px =>
      match pngPixelsP pal alpha smp xs with
      | .error e => .error e
      | .ok rest => .ok (px ++ rest)

/-- The row loop of load_png's indexed-color branch: slice row_stride bytes,
unpack sub-8-bit indices, resolve each pixel through the palette. -/
def pngRowsP (pal : List (List Nat)) (alpha : List Nat) (w depth row_stride : Nat) :
    Nat → List Nat → Except String (List Nat)
  | 0, _ => .ok []
  | n + 1, scan =>
    let rb := scan.take row_stride
    let smp := if depth < 8 then unpack_bits rb w depth 1 else rb
    match pngPixelsP pal alpha smp (List.range w) with
    | .error e => .error e
    | .ok row =>
      match pngRowsP pal alpha w depth row_stride n (scan.drop row_stride) with
      | .error e => .error e
      | .ok rest => .ok (row ++ rest)

/-- Expansion of one pixel's samples to an RGBA quadruple per color mode
(grayscale replicated, alpha 255 synthesized where absent).  The unfiltered
scanlines always hold full rows, so sample access cannot fail. -/
def pngPixel (mode : String) (vals : List Nat) : List Nat :=
  if mode = "G" then [vals.getD 0 0, vals.getD 0 0, vals.getD 0 0, 255]
  else if mode = "GA" then [vals.getD 0 0, vals.getD 0 0, vals.getD 0 0, vals.getD 1 0]
  else if mode = "RGB" then [vals.getD 0 0, vals.getD 1 0, vals.getD 2 0, 255]
  else [vals.getD 0 0, vals.getD 1 0, vals.getD 2 0, vals.getD 3 0]

/-- The per-pixel sample extraction of one non-indexed row: spp consecutive
samples per pixel, or for 16-bit depth the most significant byte of each
2-byte sample. -/
def pngRowSamples (mode : String) (spp depth w : Nat) (rowData : List Nat) : List Nat :=
  (List.range w).flatMap (fun xi =>
    if depth = 16 then
      pngPixel mode ((List.range spp).map (fun j => rowData.getD (xi * 2 * spp + 2 * j) 0))
    else
      pngPixel mode ((List.range spp).map (fun j => rowData.getD (xi * spp + j) 0)))

/-- The row loop of load_png's non-indexed branch: slice row_len bytes per
row, unpack sub-8-bit samples, expand to RGBA. -/
def pngRowsNonP (mode : String) (spp depth w row_len : Nat) : Nat → List Nat → List Nat
  | 0, _ => []
  | n + 1, scan =>
    let rowData := scan.take row_len
    let smp := if depth < 8 then unpack_bits rowData w depth spp else rowData
    pngRowSamples mode spp depth w smp ++
      pngRowsNonP mode spp depth w row_len n (scan.drop row_len)

/-- The color-type to samples-per-pixel mapping of load_png. -/
def pngSpp (color_type : Nat) : Except String Nat :=
  if color_type = 0 then .ok 1
  else if color_type = 2 then .ok 3
  else if color_type = 3 then .ok 1
  else if color_type = 4 then .ok 2
  else if color_type = 6 then .ok 4
  else .error "Unsupported PNG color type"

/-- The body of load_png after the chunk scan, from the IHDR check on. -/
def pngFromChunks (inflate : List Nat → Except String (List Nat)) (st : PngChunkState) :
    Except String (Option RGBAImage) :=
  match st.ihdr with
    | none => .error "PNG missing IHDR"
    | some ip =>
      match parseIHDR ip with
      | .error e => .error e
      | .ok (w, h, bit_depth, color_type, comp, flt, interlace) =>
        if comp ≠ 0 ∨ flt ≠ 0 ∨ interlace ≠ 0 then
          .error "Only non-interlaced PNG supported"
        else
          match pngSpp color_type with
          | .error e => .error e
          | .ok spp =>
            match inflate st.idat with
            | .error e => .error e
            | .ok raw =>
              match unfilter raw w h (max 1 ((spp * bit_depth + 7) / 8)) with
              | .error e => .error e
              | .ok scan =>
                if color_type = 3 then
                  match st.plte with
                  | none => .error "Palette missing"
                  | some pl =>
                    if pl = [] then .error "Palette missing"
                    else
                      match pngRowsP (chunk3 pl) (st.trns.getD []) w bit_depth
                          ((w * bit_depth + 7) / 8) h scan with
                      | .error e => .error e
                      | .ok out => .ok (some ⟨w, h, out⟩)
                else
                  let mode := if color_type = 0 then "G" else if color_type = 2 then "RGB"
                              else if color_type = 4 then "GA" else "RGBA"
                  let row_len := if bit_depth < 8 then (w * spp * bit_depth + 7) / 8
                                 else w * spp * (if bit_depth = 16 then 2 else 1)
                  .ok (some ⟨w, h, pngRowsNonP mode spp bit_depth w row_len h scan⟩)

/-- load_png over the file bytes.  inflate stands for Python's stdlib
zlib.decompress (external to the repository); .ok none is Python's None
return for a missing signature, .error a raised exception. -/
def load_png (inflate : List Nat → Except String (List Nat)) (b : List Nat) :
    Except String (Option RGBAImage) :=
  if ¬ PNG_SIG.isPrefixOf b then .ok none
  else pngFromChunks inflate (scanChunks (pngChunks b) ⟨none, none, none, []⟩)

/-- Little-endian value of n bytes of d starting at byte position pos. -/
def rdLE (d : List Nat) (pos n : Nat) : Nat :=
  ((List.range n).map (fun i => d.getD (pos + i) 0 * 256 ^ i)).sum

/-- Signed reading of a 32-bit value (struct format "i"). -/
def sInt32 (v : Nat) : Int := if v < 2 ^ 31 then (v : Int) else (v : Int) - 2 ^ 32

/-- One output row of load_bmp: read B,G,R(,A) bytes of file row sy starting
at offset ro and emit R,G,B,A (alpha 255 for 24-bit). -/
def bmpRowPx (px : List Nat) (ro bpb w : Nat) : List Nat :=
  (List.range w).flatMap (fun x =>
    if bpb = 3 then
      [px.getD (ro + x * 3 + 2) 0, px.getD (ro + x * 3 + 1) 0, px.getD (ro + x * 3) 0, 255]
    else
      [px.getD (ro + x * 4 + 2) 0, px.getD (ro + x * 4 + 1) 0, px.getD (ro + x * 4) 0,
       px.getD (ro + x * 4 + 3) 0])

/-- The row loop of load_bmp: bottom-up files (topDown = false) read file row
height-1-rowi for output row rowi. -/
def bmpPixels (px : List Nat) (row w height : Nat) (topDown : Bool) (bpb : Nat) : List Nat :=
  (List.range height).flatMap (fun rowi =>
    let sy := if topDown then rowi else height - 1 - rowi
    bmpRowPx px (sy * row) bpb w)

/-- load_bmp over the file bytes.  Python raises ValueError from
bytearray(...) when the width field is negative (except in the dead corner
height = 0, where it returns an empty buffer of the same w*h*4 = 0 length),
and IndexError when the pixel area is truncated; both are modelled as
upfront checks. -/
def load_bmp (d : List Nat) : Except String (Option RGBAImage) :=
  if d.length < 54 ∨ d.take 2 ≠ [66, 77] then .ok none
  else
    let dib := rdLE d 14 4
    if dib < 40 then .error "BMP: unsupported DIB header"
    else
      let wI := sInt32 (rdLE d 18 4)
      let hI := sInt32 (rdLE d 22 4)
      let planes := rdLE d 26 2
      let bpp := rdLE d 28 2
      let comp := rdLE d 30 4
      if planes ≠ 1 ∨ comp ≠ 0 then .error "BMP: only uncompressed BI_RGB"
      else if bpp ≠ 24 ∧ bpp ≠ 32 then .error "BMP: only 24/32-bit"
      else if wI < 0 then .error "ValueError: negative byte count"
      else
        let w := wI.toNat
        let height := hI.natAbs
        let off := rdLE d 10 4
        let row := ((bpp * w + 31) / 32) * 4
        let px := d.drop off
        let bpb := bpp / 8
        if 0 < height ∧ 0 < w ∧ px.length < (height - 1) * row + w * bpb then
          .error "IndexError: short pixel data"
        else .ok (some ⟨w, height, bmpPixels px row w height (hI < 0) bpb⟩)

/-- Little-endian encoding of a value into n bytes. -/
def encLE : Nat → Nat → List Nat
  | 0, _ => []
  | n + 1, v => (v % 256) :: encLE n (v / 256)

/-- Little-endian encoding of a signed 32-bit value (twos complement). -/
def encInt32 (i : Int) : List Nat := encLE 4 (i % 4294967296).toNat

/-- A syntactically valid 54-byte BMP header (BM magic, pixel offset 54,
40-byte DIB header, width w, height field hfield, one plane, bit depth bpp,
no compression; the size and resolution fields load_bmp never reads are
zero) followed by the pixel area. -/
def mkBMP (w : Nat) (hfield : Int) (bpp : Nat) (pix : List Nat) : List Nat :=
  [66, 77, 0, 0, 0, 0, 0, 0, 0, 0] ++ encLE 4 54 ++ encLE 4 40 ++
  encInt32 (w : Int) ++ encInt32 hfield ++ encLE 2 1 ++ encLE 2 bpp ++ encLE 4 0 ++
  List.replicate 20 0 ++ pix

/-- PPM whitespace bytes: space, tab, CR, LF. -/
def wsb : List Nat := [32, 9, 13, 10]

/-- The comment loop of load_ppm_pgm's tok(): while the cursor is at a hash,
drop through the end of the line and any following whitespace.  Each
iteration consumes at least the hash, so length-many fuel steps suffice. -/
def skipComments : Nat → List Nat → List Nat
  | 0, l => l
  | fuel + 1, l =>
    match l with
    | 35 :: rest =>
      let afterLine := rest.dropWhile (fun c => !(c == 13 || c == 10))
      skipComments fuel (afterLine.dropWhile (fun c => wsb.contains c))
    | _ => l

/-- tok() of load_ppm_pgm: skip whitespace, skip comment lines, take the run
of non-whitespace bytes, and consume the single delimiter byte after it. -/
def ppmTok (l : List Nat) : List Nat × List Nat :=
  let l1 := skipComments (l.length + 1) (l.dropWhile (fun c => wsb.contains c))
  let t := l1.takeWhile (fun c => !(wsb.contains c))
  let r := l1.dropWhile (fun c => !(wsb.contains c))
  (t, r.drop 1)

/-- Python int() on a header token (digits only; anything else raises). -/
def parseNat (t : List Nat) : Except String Nat :=
  if t ≠ [] ∧ ∀ c ∈ t, 48 ≤ c ∧ c ≤ 57 then
    .ok (t.foldl (fun a c => a * 10 + (c - 48)) 0)
  else .error "ValueError: invalid int"

/-- The pixel loop of load_ppm_pgm: P5 replicates the gray sample, P6 takes
RGB triples; alpha is 255. -/
def ppmBuild (isP5 : Bool) (data : List Nat) (n : Nat) : List Nat :=
  (List.range n).flatMap (fun i =>
    if isP5 then
      [data.getD i 0, data.getD i 0, data.getD i 0, 255]
    else
      [data.getD (3 * i) 0, data.getD (3 * i + 1) 0, data.getD (3 * i + 2) 0, 255])

/-- load_ppm_pgm over the file bytes.  Python indexes past the end of a short
pixel payload and raises IndexError; modelled as an upfront length check. -/
def load_ppm_pgm (b : List Nat) : Except String (Option RGBAImage) :=
  let m := b.take 2
  if m ≠ [80, 53] ∧ m ≠ [80, 54] then .ok none
  else
    let t1r := ppmTok (b.drop 2)
    let t2r := ppmTok t1r.2
    let t3r := ppmTok t2r.2
    match parseNat t1r.1, parseNat t2r.1, parseNat t3r.1 with
    | .error e, _, _ => .error e
    | .ok _, .error e, _ => .error e
    | .ok _, .ok _, .error e => .error e
    | .ok w, .ok h, .ok mv =>
      if mv ≠ 255 then .error "PPM/PGM: only maxval 255"
      else
        let count := w * h * (if m = [80, 53] then 1 else 3)
        if t3r.2.length < count then .error "IndexError: short pixel data"
        else .ok (some ⟨w, h, ppmBuild (m = [80, 53]) (t3r.2.take count) (w * h)⟩)

/-- One arm of load_image's loader loop: return a successful decode, fall
through both on a None return and on any raised exception (the source's
blanket except). -/
def orElseLoader (r : Except String (Option RGBAImage))
    (next : Unit → Except String RGBAImage) : Except String RGBAImage :=
  match r with
  | .ok (some im) => .ok im
  | .ok none => next ()
  | .error _ => next ()

/-- load_image: try PNG, then BMP, then PPM/PGM; a None return or any raised
exception falls through to the next loader, and exhaustion raises the
generic SystemExit message. -/
def load_image (inflate : List Nat → Except String (List Nat)) (b : List Nat) :
    Except String RGBAImage :=
  orElseLoader (load_png inflate b) (fun _ =>
    orElseLoader (load_bmp b) (fun _ =>
      orElseLoader (load_ppm_pgm b) (fun _ =>
        .error "Unsupported or unreadable image.")))

/-- Python int() truncation toward zero of a rational. -/
def truncQ (q : ℚ) : Int := if q < 0 then -⌊-q⌋ else ⌊q⌋

/-- scale_to_cells: pick the glyph footprint and aspect factor, fill the
width from the terminal when neither dimension is given, derive a missing
dimension from the image aspect ratio (Python's int() truncation, modelled
in exact rational arithmetic), clamp to 1, and resize.  termCols models
shutil.get_terminal_size().columns. -/
def scale_to_cells (img : RGBAImage) (mode : String) (width_cells height_cells : Option Nat)
    (char_aspect : Option ℚ) (termCols : Nat) : RGBAImage × Nat × Nat :=
  let w := img.w
  let h := img.h
  let pxw := if mode = "braille" then 2 else 1
  let pxh := if mode = "braille" then 4 else if mode = "half" then 2 else 1
  let eff : ℚ := if mode = "braille" ∨ mode = "half" then 1 / 2 else char_aspect.getD (1 / 2)
  let wco := if width_cells = none ∧ height_cells = none
             then some (max 1 (termCols - 2)) else width_cells
  let wh :=
    match wco, height_cells with
    | some wc, some hc => (wc, hc)
    | some wc, none => (wc, max 1 (truncQ ((h : ℚ) / (w : ℚ) * (wc : ℚ) * eff)).toNat)
    | none, some hc => (max 1 (truncQ ((w : ℚ) / (h : ℚ) * (hc : ℚ) / eff)).toNat, hc)
    | none, none => (1, 1)
  let tw := max 1 (wh.1 * pxw)
  let th := max 1 (wh.2 * pxh)
  (img.resize_nn tw th, wh.1, wh.2)

/-- A pixel after the renderers' alpha blend toward white. -/
def blendedPx (img : RGBAImage) (x y : Nat) : Nat × Nat × Nat :=
  let (r, g, b, a) := getPx img x y
  blendPx r g b a

/-- The region bounds of one render_blocks cell: proportional division with
int() truncation (Python computes cy * (h / cells_h) in floats; exact
rational arithmetic gives the Nat division cy * h / ch), the upper bound at
least one past the lower. -/
def blockCellBounds (w h cw ch cx cy : Nat) : Nat × Nat × Nat × Nat :=
  (cx * w / cw, max (cx * w / cw + 1) ((cx + 1) * w / cw),
   cy * h / ch, max (cy * h / ch + 1) ((cy + 1) * h / ch))

/-- The pixel coordinates (y, x) of one render_blocks averaging region. -/
def cellCoords (x0 x1 y0 y1 : Nat) : List (Nat × Nat) :=
  (List.range (y1 - y0)).flatMap (fun dy =>
    (List.range (x1 - x0)).map (fun dx => (y0 + dy, x0 + dx)))

/-- The blended channel averages of one region (integer division by the
pixel count). -/
def blockCellColor (img : RGBAImage) (x0 x1 y0 y1 : Nat) : Nat × Nat × Nat :=
  let coords := cellCoords x0 x1 y0 y1
  let cnt := coords.length
  ((coords.map (fun yx => (blendedPx img yx.2 yx.1).1)).sum / cnt,
   (coords.map (fun yx => (blendedPx img yx.2 yx.1).2.1)).sum / cnt,
   (coords.map (fun yx => (blendedPx img yx.2 yx.1).2.2)).sum / cnt)

/-- The ramp index int((Y/255.0) * (len(ramp)-1) + 0.5) in exact rational
arithmetic as one Nat division. -/
def rampIndex (Y L : Nat) : Nat := (2 * Y * (L - 1) + 255) / 510

/-- One render_blocks cell: region average, luma, tone curve, ramp glyph
(Python indexes the ramp and would raise on an empty one; getD keeps the
function total, with the claims assuming a non-empty ramp). -/
def blockCell (img : RGBAImage) (rampStr : List Char) (tone : Nat → Nat) (cw ch cx cy : Nat) :
    Char × Nat × Nat × Nat × Nat :=
  let bounds := blockCellBounds img.w img.h cw ch cx cy
  let rgb := blockCellColor img bounds.1 bounds.2.1 bounds.2.2.1 bounds.2.2.2
  let Y := tone (luma rgb.1 rgb.2.1 rgb.2.2)
  (rampStr.getD (rampIndex Y rampStr.length) ' ', rgb.1, rgb.2.1, rgb.2.2, Y)

/-- The string a render_blocks cell appends: the bare glyph or the painted
glyph. -/
def blockCellStr (color : Bool) (color_mode : String) (cv : Char × Nat × Nat × Nat × Nat) :
    String :=
  if color then paint_cell (String.singleton cv.1) cv.2.1 cv.2.2.1 cv.2.2.2.1 color_mode cv.2.2.2.2
  else String.singleton cv.1

/-- One output line of render_blocks: the joined cell strings of row cy. -/
def renderBlocksLine (img : RGBAImage) (rampStr : List Char) (tone : Nat → Nat)
    (color : Bool) (color_mode : String) (cw ch cy : Nat) : String :=
  String.join ((List.range cw).map (fun cx =>
    blockCellStr color color_mode (blockCell img rampStr tone cw ch cx cy)))

/-- The list of output lines of render_blocks (the source joins them with
newlines at the end). -/
def renderBlocksLines (img : RGBAImage) (width height : Option Nat) (ramp : String)
    (tone : Nat → Nat) (color : Bool) (color_mode : String) (char_aspect : Option ℚ)
    (termCols : Nat) : List String :=
  (List.range (scale_to_cells img "blocks" width height char_aspect termCols).2.2).map
    (fun cy => renderBlocksLine
      (scale_to_cells img "blocks" width height char_aspect termCols).1
      (rampLookup ramp).toList tone color color_mode
      (scale_to_cells img "blocks" width height char_aspect termCols).2.1
      (scale_to_cells img "blocks" width height char_aspect termCols).2.2 cy)

/-- render_blocks: the Ramp/Block renderer. -/
def render_blocks (img : RGBAImage) (width height : Option Nat) (ramp : String)
    (tone : Nat → Nat) (color : Bool) (color_mode : String) (char_aspect : Option ℚ)
    (termCols : Nat) : String :=
  String.intercalate "\n" (renderBlocksLines img width height ramp tone color color_mode
    char_aspect termCols)

def BRAILLE_BASE : Nat := 0x2800

/-- The dot-to-bit table of the Braille renderer: (dx, dy, bit). -/
def BRAILLE_BITS : List (Nat × Nat × Nat) :=
  [(0, 0, 1), (0, 1, 2), (0, 2, 3), (0, 3, 7), (1, 0, 4), (1, 1, 5), (1, 2, 6), (1, 3, 8)]

/-- One step of the Braille cell loop: skip an out-of-bounds window pixel,
otherwise blend, take the tone-curved luma, set the dot bit when it is below
128, and accumulate the color sums. -/
def brailleStep (img : RGBAImage) (tone : Nat → Nat) (cx cy : Nat)
    (st : Nat × Nat × Nat × Nat × Nat) (e : Nat × Nat × Nat) : Nat × Nat × Nat × Nat × Nat :=
  let sx := cx + e.1
  let sy := cy + e.2.1
  if img.w ≤ sx ∨ img.h ≤ sy then st
  else
    let rgb := blendedPx img sx sy
    let Y := tone (luma rgb.1 rgb.2.1 rgb.2.2)
    let bits := if Y < 128 then st.1 ||| (1 <<< (e.2.2 - 1)) else st.1
    (bits, st.2.1 + rgb.1, st.2.2.1 + rgb.2.1, st.2.2.2.1 + rgb.2.2, st.2.2.2.2 + 1)

/-- One Braille cell: (bits, rs, gs, bs, cnt) after folding the dot table. -/
def brailleCell (img : RGBAImage) (tone : Nat → Nat) (cx cy : Nat) :
    Nat × Nat × Nat × Nat × Nat :=
  BRAILLE_BITS.foldl (brailleStep img tone cx cy) (0, 0, 0, 0, 0)

/-- Whether the Braille renderer sets the dot for pixel (x, y): the pixel is
inside the buffer and its post-blend, tone-curved luma is below 128. -/
def brailleDot (img : RGBAImage) (tone : Nat → Nat) (x y : Nat) : Prop :=
  x < img.w ∧ y < img.h ∧
    tone (luma (blendedPx img x y).1 (blendedPx img x y).2.1 (blendedPx img x y).2.2) < 128

instance (img : RGBAImage) (tone : Nat → Nat) (x y : Nat) :
    Decidable (brailleDot img tone x y) :=
  inferInstanceAs (Decidable (x < img.w ∧ y < img.h ∧
    tone (luma (blendedPx img x y).1 (blendedPx img x y).2.1 (blendedPx img x y).2.2) < 128))

/-- The string a Braille cell appends: chr(BRAILLE_BASE + bits), painted with
the averaged color when color is on and the cell sampled any pixel. -/
def brailleCellStr (color : Bool) (color_mode : String) (st : Nat × Nat × Nat × Nat × Nat) :
    String :=
  let glyph := String.singleton (Char.ofNat (BRAILLE_BASE + st.1))
  if color ∧ st.2.2.2.2 ≠ 0 then
    let r := st.2.1 / st.2.2.2.2
    let g := st.2.2.1 / st.2.2.2.2
    let b := st.2.2.2.1 / st.2.2.2.2
    paint_cell glyph r g b color_mode (luma r g b)
  else glyph

/-- The list of output lines of render_braille: cells at x steps of 2 and y
steps of 4 over the scaled buffer. -/
def renderBrailleLines (img : RGBAImage) (width height : Option Nat) (tone : Nat → Nat)
    (color : Bool) (color_mode : String) (termCols : Nat) : List String :=
  let s := scale_to_cells img "braille" width height none termCols
  (List.range ((s.1.h + 3) / 4)).map (fun ry =>
    String.join ((List.range ((s.1.w + 1) / 2)).map (fun rx =>
      brailleCellStr color color_mode (brailleCell s.1 tone (2 * rx) (4 * ry)))))

/-- render_braille: the Braille renderer. -/
def render_braille (img : RGBAImage) (width height : Option Nat) (tone : Nat → Nat)
    (color : Bool) (color_mode : String) (termCols : Nat) : String :=
  String.intercalate "\n" (renderBrailleLines img width height tone color color_mode termCols)

end Img2Text

deriving instance DecidableEq for Except

namespace Img2Text

/-- An inflate oracle returning a fixed byte list: it stands for
zlib.decompress applied to the matching compressed stream (every byte list
is the decompression of some zlib stream). -/
def inflateConst (raw : List Nat) : List Nat → Except String (List Nat) := fun _ => .ok raw

/-- A PNG chunk with a small (< 256 byte) payload: big-endian length, tag,
payload, and a zero CRC (load_png never checks CRCs). -/
def mkChunk (t p : List Nat) : List Nat :=
  [0, 0, 0, p.length % 256] ++ t ++ p ++ [0, 0, 0, 0]

/-- A 1-by-1 white PNG file: IHDR (width 1, height 1, bit depth 8, color
type 2), one IDAT chunk (whose payload load_png hands to inflate), IEND. -/
def pngWhite1x1 : List Nat :=
  PNG_SIG ++ mkChunk [73, 72, 68, 82] [0, 0, 0, 1, 0, 0, 0, 1, 8, 2, 0, 0, 0] ++
  mkChunk [73, 68, 65, 84] [] ++ mkChunk [73, 69, 78, 68] []

/-- A 1-by-1 indexed PNG (bit depth 8, color type 3) with a 2-entry palette
and a 6-entry transparency table whose entry 5 is 7. -/
def pngIndexed1x1 : List Nat :=
  PNG_SIG ++ mkChunk [73, 72, 68, 82] [0, 0, 0, 1, 0, 0, 0, 1, 8, 3, 0, 0, 0] ++
  mkChunk [80, 76, 84, 69] [10, 20, 30, 40, 50, 60] ++
  mkChunk [116, 82, 78, 83] [11, 22, 33, 44, 55, 7] ++
  mkChunk [73, 68, 65, 84] [] ++ mkChunk [73, 69, 78, 68] []

/-- A 1-by-3 all-black image used as a concrete scaling input. -/
def img1x3 : RGBAImage := ⟨1, 3, List.replicate 12 0⟩

/-- A 1-by-1 bottom-up 24-bit BMP file with the pixel B=10, G=20, R=30. -/
def bmp1x1 : List Nat :=
  [66, 77] ++ [0, 0, 0, 0, 0, 0, 0, 0] ++ [54, 0, 0, 0] ++ [40, 0, 0, 0] ++
  [1, 0, 0, 0] ++ [1, 0, 0, 0] ++ [1, 0] ++ [24, 0] ++ [0, 0, 0, 0] ++
  List.replicate 20 0 ++ [10, 20, 30, 0]

/-- The 2-by-2 P6 PPM of the spec's scenario: header " 2 2 255 " and the
pixel bytes FF0000 00FF00 0000FF FFFFFF. -/
def ppm2x2 : List Nat :=
  [80, 54] ++ [32, 50, 32, 50, 32, 50, 53, 53, 32] ++
  [255, 0, 0, 0, 255, 0, 0, 0, 255, 255, 255, 255]

end Img2Text

namespace Img2Text

/-- C1 counterexample: the 1-by-1 white PNG (color type 2, depth 8) does
decode to [255,255,255,255], but rendering it with ramp " .#" at a 1-by-1
cell grid yields "#", the ramp's last character, not the first character
(the space) the claim asserts: luma 255 maps to ramp index 2. -/
theorem C1_counterexample :
    load_png (inflateConst [0, 255, 255, 255]) pngWhite1x1 =
      .ok (some ⟨1, 1, [255, 255, 255, 255]⟩) ∧
    render_blocks ⟨1, 1, [255, 255, 255, 255]⟩ (some 1) (some 1) " .#" id false "auto"
      none 80 = "#" ∧
    "#" ≠ " " := by
  refine ⟨by decide, ?_, by decide⟩
  decide

/-- C1 amended: the 1-by-1 white PNG decodes to [255,255,255,255] and
rendering the decoded image in ascii mode with the literal ramp " .#" at a
1-by-1 cell grid yields the ramp's last character, the hash sign (ramp
index round(255/255 * 2) = 2), not its first. -/
theorem C1_amended_render :
    load_png (inflateConst [0, 255, 255, 255]) pngWhite1x1 =
      .ok (some ⟨1, 1, [255, 255, 255, 255]⟩) ∧
    render_blocks ⟨1, 1, [255, 255, 255, 255]⟩ (some 1) (some 1) " .#" id false "auto"
      none 80 = String.singleton (" .#".toList.getD 2 ' ') := by
  refine ⟨by decide, ?_⟩
  decide

/-- Unfolding of the derived height in blocks mode with only the width
given. -/
theorem scale_height_eq (img : RGBAImage) (wc : Nat) (aspect : Option ℚ) (tc : Nat) :
    (scale_to_cells img "blocks" (some wc) none aspect tc).2.2 =
      max 1 (truncQ ((img.h : ℚ) / (img.w : ℚ) * (wc : ℚ) * aspect.getD (1 / 2))).toNat := rfl

/-- Unfolding of the derived width in blocks mode with only the height
given. -/
theorem scale_width_eq (img : RGBAImage) (hc : Nat) (aspect : Option ℚ) (tc : Nat) :
    (scale_to_cells img "blocks" none (some hc) aspect tc).2.1 =
      max 1 (truncQ ((img.w : ℚ) / (img.h : ℚ) * (hc : ℚ) / aspect.getD (1 / 2))).toNat := rfl

/-- C4 counterexample: a 1-by-3 image with width_cells = 1 in blocks mode
(aspect 0.5): the code derives height_cells = max(1, int(1.5)) = 1, while
the claim's round(img_h/img_w * width_cells * aspect) = round(1.5) = 2. -/
theorem C4_counterexample :
    (scale_to_cells img1x3 "blocks" (some 1) none none 80).2.2 = 1 ∧
    round ((img1x3.h : ℚ) / (img1x3.w : ℚ) * 1 * (1 / 2)) = 2 := by
  have hfloor : ⌊(3 / 2 : ℚ)⌋ = 1 := by
    rw [Int.floor_eq_iff]
    norm_num
  constructor
  · rw [scale_height_eq]
    have hval : (img1x3.h : ℚ) / (img1x3.w : ℚ) * ((1 : Nat) : ℚ) *
        (Option.getD (none : Option ℚ) (1 / 2)) = 3 / 2 := by
      norm_num [img1x3]
    rw [hval, truncQ, if_neg (by norm_num), hfloor]
    decide
  · have hval : (img1x3.h : ℚ) / (img1x3.w : ℚ) * 1 * (1 / 2) = 3 / 2 := by
      norm_num [img1x3]
    rw [hval, round_eq]
    norm_num

/-- C4 amended: when exactly one of width_cells/height_cells is given, the
other is derived preserving the aspect ratio with Python's int() truncation
toward zero (not rounding to nearest): height_cells =
max(1, trunc(img_h/img_w * width_cells * aspect)) and width_cells =
max(1, trunc(img_w/img_h * height_cells / aspect)); each derived dimension
is clamped to a minimum of 1. -/
theorem C4_amended (img : RGBAImage) (wc hc : Nat) (aspect : Option ℚ) (tc : Nat) :
    (scale_to_cells img "blocks" (some wc) none aspect tc).2.2 =
      max 1 (truncQ ((img.h : ℚ) / (img.w : ℚ) * (wc : ℚ) * aspect.getD (1 / 2))).toNat ∧
    (scale_to_cells img "blocks" none (some hc) aspect tc).2.1 =
      max 1 (truncQ ((img.w : ℚ) / (img.h : ℚ) * (hc : ℚ) / aspect.getD (1 / 2))).toNat ∧
    1 ≤ (scale_to_cells img "blocks" (some wc) none aspect tc).2.2 ∧
    1 ≤ (scale_to_cells img "blocks" none (some hc) aspect tc).2.1 := by
  refine ⟨scale_height_eq img wc aspect tc, scale_width_eq img hc aspect tc, ?_, ?_⟩
  · rw [scale_height_eq]; exact Nat.le_max_left 1 _
  · rw [scale_width_eq]; exact Nat.le_max_left 1 _

/-- C6 counterexample: a 1-by-1 indexed PNG with a 2-entry palette, a 6-entry
transparency table whose entry 5 is 7, and pixel index 5 decodes to
(0,0,0,7): black, but with the transparency table's alpha, not the fully
opaque (0,0,0,255) the claim asserts for every out-of-range index. -/
theorem C6_counterexample :
    load_png (inflateConst [0, 5]) pngIndexed1x1 = .ok (some ⟨1, 1, [0, 0, 0, 7]⟩) ∧
    [0, 0, 0, 7] ≠ [0, 0, 0, 255] := by
  refine ⟨?_, by decide⟩
  decide

/-- C6 amended: a pixel index at or beyond the palette length resolves,
without error, to black (0,0,0) with alpha taken from the transparency table
when that table itself reaches the index, and to fully opaque black
(0,0,0,255) whenever it does not (in particular whenever the transparency
table is absent or no longer than the palette). -/
theorem C6_amended (pal : List (List Nat)) (alpha : List Nat) (idx : Nat)
    (h : pal.length ≤ idx) :
    palettePixel pal alpha idx =
      .ok [0, 0, 0, if idx < alpha.length then alpha.getD idx 0 else 255] ∧
    (alpha.length ≤ idx → palettePixel pal alpha idx = .ok [0, 0, 0, 255]) := by
  have hlt : ¬ idx < pal.length := by omega
  constructor
  · simp [palettePixel, hlt]
  · intro ha
    simp [palettePixel, hlt, Nat.not_lt.mpr ha]

/-- C6 witness: the amended statement applied at a 1-entry palette, an empty
transparency table and index 5. -/
theorem C6_witness :
    palettePixel [[1, 2, 3]] [] 5 = .ok [0, 0, 0, 255] :=
  (C6_amended [[1, 2, 3]] [] 5 (by decide)).2 (by decide)

/-- C2 counterexample: a file that is just the 8-byte PNG signature is a
recognized PNG whose decode raises a malformed-format error (missing IHDR),
yet load_image does not propagate that error: it swallows it, falls through
to the BMP and PPM decoders, and raises the generic unreadable message. -/
theorem C2_counterexample :
    load_png (inflateConst []) PNG_SIG = .error "PNG missing IHDR" ∧
    load_image (inflateConst []) PNG_SIG = .error "Unsupported or unreadable image." ∧
    "Unsupported or unreadable image." ≠ "PNG missing IHDR" := by
  refine ⟨by decide, by decide, by decide⟩

theorem orElseLoader_ok_some (im : RGBAImage) (next : Unit → Except String RGBAImage) :
    orElseLoader (.ok (some im)) next = .ok im := rfl

theorem orElseLoader_ok_none (next : Unit → Except String RGBAImage) :
    orElseLoader (.ok none) next = next () := rfl

theorem orElseLoader_error (e : String) (next : Unit → Except String RGBAImage) :
    orElseLoader (.error e) next = next () := rfl

/-- If a loader arm produced an error, that error came from the rest of the
chain: the arm itself never propagates its loader's failure. -/
theorem orElseLoader_error_inv (r : Except String (Option RGBAImage))
    (next : Unit → Except String RGBAImage) (e : String)
    (he : orElseLoader r next = .error e) : next () = .error e := by
  cases r with
  | ok o =>
    cases o with
    | some im => rw [orElseLoader_ok_some] at he; exact Except.noConfusion he
    | none => rwa [orElseLoader_ok_none] at he
  | error e2 => rwa [orElseLoader_error] at he

/-- load_png raises only after the PNG signature matched. -/
theorem load_png_error_prefix (inflate : List Nat → Except String (List Nat)) (b : List Nat)
    (e : String) (h : load_png inflate b = .error e) : PNG_SIG.isPrefixOf b = true := by
  by_contra hp
  unfold load_png at h
  rw [if_pos hp] at h
  exact Except.noConfusion h

/-- A byte string starting with the PNG signature is never taken for a BMP. -/
theorem bmp_none_of_png_sig (t : List Nat) : load_bmp (PNG_SIG ++ t) = .ok none := by
  have h2 : (PNG_SIG ++ t).take 2 = [137, 80] := rfl
  rw [load_bmp, if_pos (Or.inr (by rw [h2]; decide))]

/-- A byte string starting with the PNG signature is never taken for a
PPM/PGM. -/
theorem ppm_none_of_png_sig (t : List Nat) : load_ppm_pgm (PNG_SIG ++ t) = .ok none := by
  have h2 : (PNG_SIG ++ t).take 2 = [137, 80] := rfl
  simp only [load_ppm_pgm, h2]
  rw [if_pos (by decide)]

/-- C2 amended: the dispatcher swallows every decoder error: the only error
load_image ever returns is the generic unreadable message, and in particular
a malformed-format error raised by the PNG decoder (which implies the file
bears the PNG signature, so BMP and PPM both reject it) leads to that
generic message, not to the decoder's own error. -/
theorem C2_amended (inflate : List Nat → Except String (List Nat)) (b : List Nat) :
    (∀ e, load_image inflate b = .error e → e = "Unsupported or unreadable image.") ∧
    (∀ e, load_png inflate b = .error e →
      load_image inflate b = .error "Unsupported or unreadable image.") := by
  constructor
  · intro e he
    unfold load_image at he
    have h1 := orElseLoader_error_inv _ _ _ he
    have h2 := orElseLoader_error_inv _ _ _ h1
    have h3 := orElseLoader_error_inv _ _ _ h2
    injection h3 with h4
    exact h4.symm
  · intro e he
    have hpre := load_png_error_prefix inflate b e he
    obtain ⟨t, rfl⟩ : ∃ t, b = PNG_SIG ++ t := by
      obtain ⟨t, ht⟩ := List.isPrefixOf_iff_prefix.mp hpre
      exact ⟨t, ht.symm⟩
    unfold load_image
    rw [he, orElseLoader_error, bmp_none_of_png_sig, orElseLoader_ok_none,
        ppm_none_of_png_sig, orElseLoader_ok_none]

/-- C2 witness: the amended statement applied to the signature-only PNG
file, whose decode error "PNG missing IHDR" is swallowed. -/
theorem C2_witness :
    load_image (inflateConst []) PNG_SIG = .error "Unsupported or unreadable image." :=
  (C2_amended (inflateConst []) PNG_SIG).2 "PNG missing IHDR" (by decide)

theorem beNum_foldl (l : List Nat) (a : Nat) :
    l.foldl (fun x b => x * 256 + b) a = a * 256 ^ l.length + beNum l := by
  induction l generalizing a with
  | nil => simp [beNum]
  | cons hd tl ih =>
    simp only [List.foldl_cons, List.length_cons, beNum]
    rw [ih (a * 256 + hd), ih (0 * 256 + hd)]
    ring

theorem beNum_append (l1 l2 : List Nat) :
    beNum (l1 ++ l2) = beNum l1 * 256 ^ l2.length + beNum l2 := by
  simp only [beNum, List.foldl_append]
  exact beNum_foldl l2 _

theorem beNum_lt (l : List Nat) (h : ∀ x ∈ l, x < 256) : beNum l < 256 ^ l.length := by
  induction l with
  | nil => simp [beNum]
  | cons hd tl ih =>
    have hsplit : beNum (hd :: tl) = hd * 256 ^ tl.length + beNum tl := by
      have hb := beNum_append [hd] tl
      simpa [beNum] using hb
    rw [hsplit, List.length_cons]
    have h1 : hd < 256 := h hd (by simp)
    have h2 : beNum tl < 256 ^ tl.length := ih (fun x hx => h x (by simp [hx]))
    calc hd * 256 ^ tl.length + beNum tl
        < hd * 256 ^ tl.length + 256 ^ tl.length := by omega
      _ = (hd + 1) * 256 ^ tl.length := by ring
      _ ≤ 256 * 256 ^ tl.length := Nat.mul_le_mul_right _ (by omega)
      _ = 256 ^ (tl.length + 1) := by ring

theorem beNum_take_succ (B : List Nat) (c : Nat) (hc : c < B.length) :
    beNum (B.take (c + 1)) = beNum (B.take c) * 256 + B.getD c 0 := by
  rw [← List.take_concat_get' B c hc, beNum_append, List.getD_eq_getElem B 0 hc]
  simp [beNum]

/-- Shifting the big-endian value of the whole string down past the bytes
beyond position c equals shifting the value of the first c bytes. -/
theorem beNum_shift_take (B : List Nat) (hB : ∀ x ∈ B, x < 256) (c S : Nat)
    (_hc : c ≤ B.length) :
    beNum B >>> (S + 8 * (B.length - c)) = beNum (B.take c) >>> S := by
  have hsplit : beNum B = beNum (B.take c) * 2 ^ (8 * (B.length - c)) + beNum (B.drop c) := by
    have hb := beNum_append (B.take c) (B.drop c)
    rw [List.take_append_drop] at hb
    rw [hb, List.length_drop]
    congr 1
    rw [show (256 : Nat) = 2 ^ 8 from rfl, ← pow_mul]
  have hlt : beNum (B.drop c) < 2 ^ (8 * (B.length - c)) := by
    have hb := beNum_lt (B.drop c) (fun x hx => hB x (List.mem_of_mem_drop hx))
    rwa [List.length_drop, show (256 : Nat) = 2 ^ 8 from rfl, ← pow_mul] at hb
  rw [Nat.shiftRight_eq_div_pow, Nat.shiftRight_eq_div_pow, hsplit]
  rw [pow_add, Nat.mul_comm (2 ^ S), ← Nat.div_div_eq_div_mul]
  congr 1
  rw [Nat.add_comm, Nat.add_mul_div_right _ _ (Nat.pos_pow_of_pos _ (by norm_num))]
  rw [Nat.div_eq_of_lt hlt]
  simp

/-- The bit cursor's emitted value at sample k, computed from the consumed
prefix, is the k-th bit group of the whole byte string. -/
theorem emit_val_eq_bitGroup (B : List Nat) (hB : ∀ x ∈ B, x < 256) (bps c k : Nat)
    (hc : c ≤ B.length) (hk : (k + 1) * bps ≤ 8 * c) :
    (beNum (B.take c) >>> (8 * c - (k + 1) * bps)) &&& (2 ^ bps - 1) = bitGroup B bps k := by
  unfold bitGroup
  congr 1
  have h8 : 8 * B.length - (k + 1) * bps = (8 * c - (k + 1) * bps) + 8 * (B.length - c) := by
    omega
  rw [h8, beNum_shift_take B hB c _ hc]

/-- The loop invariant of the _unpack_bits cursor: starting from a consumed
prefix of c bytes with out.length samples already emitted correctly, the
loop keeps every emitted sample equal to its bit group and stops only at the
total or when the bit stream cannot supply one more sample. -/
theorem unpackGo_invariant (bps total : Nat) (B : List Nat) (hB : ∀ x ∈ B, x < 256) :
    ∀ fuel c out,
      c ≤ B.length →
      bps * out.length ≤ 8 * c →
      out.length ≤ total →
      B.length - c + (total - out.length) ≤ fuel →
      (∀ j < out.length, out.getD j 0 =
        if (j + 1) * bps ≤ 8 * B.length then scaleSample bps (bitGroup B bps j) else 0) →
      (unpackGo bps total fuel (B.drop c) (beNum (B.take c))
          (8 * c - bps * out.length) out).length ≤ total ∧
      (∀ j < (unpackGo bps total fuel (B.drop c) (beNum (B.take c))
          (8 * c - bps * out.length) out).length,
        (unpackGo bps total fuel (B.drop c) (beNum (B.take c))
            (8 * c - bps * out.length) out).getD j 0 =
          if (j + 1) * bps ≤ 8 * B.length then scaleSample bps (bitGroup B bps j) else 0) ∧
      (total ≤ (unpackGo bps total fuel (B.drop c) (beNum (B.take c))
          (8 * c - bps * out.length) out).length ∨
        8 * B.length < ((unpackGo bps total fuel (B.drop c) (beNum (B.take c))
          (8 * c - bps * out.length) out).length + 1) * bps) := by
  intro fuel
  induction fuel with
  | zero =>
    intro c out hc hbits htot hfuel hout
    have hkeq : out.length = total := by omega
    simp only [unpackGo]
    exact ⟨le_of_eq hkeq, hout, Or.inl (le_of_eq hkeq.symm)⟩
  | succ fuel ih =>
    intro c out hc hbits htot hfuel hout
    by_cases h1 : total ≤ out.length
    · simp only [unpackGo, if_pos h1]
      exact ⟨htot, hout, Or.inl h1⟩
    · by_cases h2 : 8 * c - bps * out.length < bps
      · cases hdrop : B.drop c with
        | nil =>
          have hcL : B.length ≤ c := List.drop_eq_nil_iff.mp hdrop
          have hmul : (out.length + 1) * bps = bps * out.length + bps := by ring
          simp only [unpackGo, hdrop, if_neg h1, if_pos h2]
          exact ⟨htot, hout, Or.inr (by omega)⟩
        | cons by0 rest =>
          have hcL : c < B.length := by
            by_contra hh
            rw [List.drop_eq_nil_iff.mpr (by omega)] at hdrop
            cases hdrop
          have hdc : B.drop c = B[c] :: B.drop (c + 1) := List.drop_eq_getElem_cons hcL
          rw [hdrop] at hdc
          injection hdc with hby hrest
          subst hby
          subst hrest
          have hacc : beNum (B.take c) * 256 + B[c] = beNum (B.take (c + 1)) := by
            rw [beNum_take_succ B c hcL, List.getD_eq_getElem B 0 hcL]
          have hnb : 8 * c - bps * out.length + 8 = 8 * (c + 1) - bps * out.length := by
            omega
          simp only [unpackGo, hdrop, if_neg h1, if_pos h2]
          rw [hacc, hnb]
          exact ih (c + 1) out (by omega) (by omega) htot (by omega) hout
      · simp only [unpackGo, if_neg h1, if_neg h2]
        have hmul : bps * (out.length + 1) = bps * out.length + bps := by ring
        have hmul2 : (out.length + 1) * bps = bps * (out.length + 1) := by ring
        have hn2 : 8 * c - bps * out.length - bps = 8 * c - (out.length + 1) * bps := by
          omega
        have hkb : (out.length + 1) * bps ≤ 8 * c := by omega
        have hsample := emit_val_eq_bitGroup B hB bps c out.length hc hkb
        rw [hn2, hsample]
        have hres := ih c (out ++ [scaleSample bps (bitGroup B bps out.length)]) hc
          (by simp only [List.length_append, List.length_singleton]; omega)
          (by simp only [List.length_append, List.length_singleton]; omega)
          (by simp only [List.length_append, List.length_singleton]; omega)
          ?_
        · simpa only [List.length_append, List.length_singleton,
            Nat.mul_comm bps (out.length + 1)] using hres
        · intro j hj
          simp only [List.length_append, List.length_singleton] at hj
          rcases Nat.lt_or_ge j out.length with hlt | hge
          · rw [List.getD_append _ _ 0 j hlt]
            exact hout j hlt
          · have hje : j = out.length := by omega
            subst hje
            rw [List.getD_append_right _ _ 0 _ (le_refl _)]
            simp only [Nat.sub_self, List.getD_cons_zero]
            have hcond : (out.length + 1) * bps ≤ 8 * B.length := by omega
            rw [if_pos hcond]

theorem unfilterRowGo_length (f bpp : Nat) (s prev : List Nat) :
    ∀ n d, (unfilterRowGo f bpp s prev n d).length = d.length + n := by
  intro n
  induction n with
  | zero => intro d; simp [unfilterRowGo]
  | succ n ih =>
    intro d
    simp only [unfilterRowGo]
    rw [ih]
    simp only [List.length_append, List.length_singleton]
    omega

theorem unfilterRowGo_stable (f bpp : Nat) (s prev : List Nat) :
    ∀ n d i, i < d.length → (unfilterRowGo f bpp s prev n d).getD i 0 = d.getD i 0 := by
  intro n
  induction n with
  | zero => intro d i _; simp [unfilterRowGo]
  | succ n ih =>
    intro d i hi
    simp only [unfilterRowGo]
    rw [ih (d ++ [reconByte f bpp s prev d]) i (by simp only [List.length_append]; omega)]
    exact List.getD_append _ _ 0 i hi

theorem unfilterRowGo_take (f bpp : Nat) (s prev : List Nat) :
    ∀ n d x, x ≤ d.length → (unfilterRowGo f bpp s prev n d).take x = d.take x := by
  intro n
  induction n with
  | zero => intro d x _; simp [unfilterRowGo]
  | succ n ih =>
    intro d x hx
    simp only [unfilterRowGo]
    rw [ih _ x (by simp only [List.length_append]; omega)]
    exact List.take_append_of_le_length hx

/-- Each byte of the in-place reconstruction equals the recurrence applied to
the prefix written before it. -/
theorem unfilterRowGo_formula (f bpp : Nat) (s prev : List Nat) :
    ∀ n d x, d.length ≤ x → x < d.length + n →
      (unfilterRowGo f bpp s prev n d).getD x 0 =
        reconByte f bpp s prev ((unfilterRowGo f bpp s prev n d).take x) := by
  intro n
  induction n with
  | zero => intro d x h1 h2; omega
  | succ n ih =>
    intro d x h1 h2
    rcases Nat.eq_or_lt_of_le h1 with heq | hlt
    · subst heq
      simp only [unfilterRowGo]
      rw [unfilterRowGo_stable f bpp s prev n _ d.length
        (by simp only [List.length_append, List.length_singleton]; omega)]
      rw [unfilterRowGo_take f bpp s prev n _ d.length
        (by simp only [List.length_append, List.length_singleton]; omega)]
      rw [List.getD_append_right _ _ 0 _ (le_refl _)]
      simp only [Nat.sub_self, List.getD_cons_zero]
      rw [List.take_append_of_le_length (le_refl _), List.take_length]
    · simp only [unfilterRowGo]
      exact ih (d ++ [reconByte f bpp s prev d]) x
        (by simp only [List.length_append, List.length_singleton]; omega)
        (by simp only [List.length_append, List.length_singleton]; omega)

theorem unfilterRow_length (f bpp : Nat) (s prev : List Nat) (stride : Nat) :
    (unfilterRow f bpp s prev stride).length = stride := by
  unfold unfilterRow
  rw [unfilterRowGo_length]
  simp

theorem unfilterRow_spec (f bpp : Nat) (s prev : List Nat) (stride x : Nat)
    (hx : x < stride) :
    (unfilterRow f bpp s prev stride).getD x 0 =
      reconByte f bpp s prev ((unfilterRow f bpp s prev stride).take x) := by
  unfold unfilterRow
  exact unfilterRowGo_formula f bpp s prev stride [] x (by simp) (by simpa)

theorem takeD_eq (l : List Nat) (x i : Nat) (hi : i < x) (hx : x ≤ l.length) :
    (l.take x).getD i 0 = l.getD i 0 := by
  have h := List.getD_append (l.take x) (l.drop x) 0 i (by rw [List.length_take]; omega)
  rw [List.take_append_drop] at h
  exact h.symm

theorem reconByte_one (bpp : Nat) (s prev d : List Nat) :
    reconByte 1 bpp s prev d =
      (s.getD d.length 0 + (if bpp ≤ d.length then d.getD (d.length - bpp) 0 else 0)) % 256 :=
  rfl

theorem reconByte_two (bpp : Nat) (s prev d : List Nat) :
    reconByte 2 bpp s prev d = (s.getD d.length 0 + prev.getD d.length 0) % 256 := rfl

theorem reconByte_three (bpp : Nat) (s prev d : List Nat) :
    reconByte 3 bpp s prev d =
      (s.getD d.length 0 +
        ((if bpp ≤ d.length then d.getD (d.length - bpp) 0 else 0) + prev.getD d.length 0) / 2)
        % 256 := rfl

theorem reconByte_four (bpp : Nat) (s prev d : List Nat) :
    reconByte 4 bpp s prev d =
      (s.getD d.length 0 +
        paeth (if bpp ≤ d.length then d.getD (d.length - bpp) 0 else 0)
          (prev.getD d.length 0)
          (if bpp ≤ d.length then prev.getD (d.length - bpp) 0 else 0)) % 256 := rfl

/-- The Sub recurrence of one reconstructed scanline, with the left neighbor
read from the final row (its prefix is stable). -/
theorem unfilterRow_sub (bpp : Nat) (s prev : List Nat) (stride x : Nat)
    (hbpp : 1 ≤ bpp) (hx : x < stride) :
    (unfilterRow 1 bpp s prev stride).getD x 0 =
      (s.getD x 0 +
        (if bpp ≤ x then (unfilterRow 1 bpp s prev stride).getD (x - bpp) 0 else 0)) % 256 := by
  rw [unfilterRow_spec 1 bpp s prev stride x hx, reconByte_one]
  have hlen : ((unfilterRow 1 bpp s prev stride).take x).length = x := by
    rw [List.length_take, unfilterRow_length]
    omega
  rw [hlen]
  by_cases hb : bpp ≤ x
  · rw [if_pos hb, if_pos hb,
      takeD_eq _ x _ (by omega) (by rw [unfilterRow_length]; omega)]
  · rw [if_neg hb, if_neg hb]

theorem unfilterRow_up (bpp : Nat) (s prev : List Nat) (stride x : Nat)
    (hx : x < stride) :
    (unfilterRow 2 bpp s prev stride).getD x 0 =
      (s.getD x 0 + prev.getD x 0) % 256 := by
  rw [unfilterRow_spec 2 bpp s prev stride x hx, reconByte_two]
  have hlen : ((unfilterRow 2 bpp s prev stride).take x).length = x := by
    rw [List.length_take, unfilterRow_length]
    omega
  rw [hlen]

theorem unfilterRow_avg (bpp : Nat) (s prev : List Nat) (stride x : Nat)
    (hbpp : 1 ≤ bpp) (hx : x < stride) :
    (unfilterRow 3 bpp s prev stride).getD x 0 =
      (s.getD x 0 +
        ((if bpp ≤ x then (unfilterRow 3 bpp s prev stride).getD (x - bpp) 0 else 0) +
          prev.getD x 0) / 2) % 256 := by
  rw [unfilterRow_spec 3 bpp s prev stride x hx, reconByte_three]
  have hlen : ((unfilterRow 3 bpp s prev stride).take x).length = x := by
    rw [List.length_take, unfilterRow_length]
    omega
  rw [hlen]
  by_cases hb : bpp ≤ x
  · rw [if_pos hb, if_pos hb,
      takeD_eq _ x _ (by omega) (by rw [unfilterRow_length]; omega)]
  · rw [if_neg hb, if_neg hb]

theorem unfilterRow_paeth (bpp : Nat) (s prev : List Nat) (stride x : Nat)
    (hbpp : 1 ≤ bpp) (hx : x < stride) :
    (unfilterRow 4 bpp s prev stride).getD x 0 =
      (s.getD x 0 +
        paeth (if bpp ≤ x then (unfilterRow 4 bpp s prev stride).getD (x - bpp) 0 else 0)
          (prev.getD x 0)
          (if bpp ≤ x then prev.getD (x - bpp) 0 else 0)) % 256 := by
  rw [unfilterRow_spec 4 bpp s prev stride x hx, reconByte_four]
  have hlen : ((unfilterRow 4 bpp s prev stride).take x).length = x := by
    rw [List.length_take, unfilterRow_length]
    omega
  rw [hlen]
  by_cases hb : bpp ≤ x
  · rw [if_pos hb, if_pos hb, if_pos hb,
      takeD_eq _ x _ (by omega) (by rw [unfilterRow_length]; omega)]
  · rw [if_neg hb, if_neg hb, if_neg hb]

/-- C3: the Paeth predictor picks, among left, up, and upper-left, a value
closest to p = left + up - upper_left with ties broken in that order; every
byte of a filter-type-4 scanline adds that predictor modulo 256 (left and
upper-left being 0 when x < bpp), Sub adds the left neighbor, Up the byte
above, Average the floored mean of left and up, all modulo 256; and
_unfilter runs the rows against an all-zero previous row at the first
scanline. -/
theorem C3_filters :
    (∀ a b c : Nat,
      (paeth a b c = a ∨ paeth a b c = b ∨ paeth a b c = c) ∧
      (((a : Int) + b - c) - paeth a b c).natAbs ≤ (((a : Int) + b - c) - a).natAbs ∧
      (((a : Int) + b - c) - paeth a b c).natAbs ≤ (((a : Int) + b - c) - b).natAbs ∧
      (((a : Int) + b - c) - paeth a b c).natAbs ≤ (((a : Int) + b - c) - c).natAbs ∧
      ((((a : Int) + b - c) - a).natAbs ≤ (((a : Int) + b - c) - b).natAbs ∧
        (((a : Int) + b - c) - a).natAbs ≤ (((a : Int) + b - c) - c).natAbs →
          paeth a b c = a) ∧
      (¬ ((((a : Int) + b - c) - a).natAbs ≤ (((a : Int) + b - c) - b).natAbs ∧
          (((a : Int) + b - c) - a).natAbs ≤ (((a : Int) + b - c) - c).natAbs) →
        (((a : Int) + b - c) - b).natAbs ≤ (((a : Int) + b - c) - c).natAbs →
          paeth a b c = b) ∧
      (¬ ((((a : Int) + b - c) - a).natAbs ≤ (((a : Int) + b - c) - b).natAbs ∧
          (((a : Int) + b - c) - a).natAbs ≤ (((a : Int) + b - c) - c).natAbs) →
        ¬ (((a : Int) + b - c) - b).natAbs ≤ (((a : Int) + b - c) - c).natAbs →
          paeth a b c = c)) ∧
    (∀ (bpp : Nat) (s prev : List Nat) (stride x : Nat), 1 ≤ bpp → x < stride →
      ((unfilterRow 4 bpp s prev stride).getD x 0 =
        (s.getD x 0 +
          paeth (if bpp ≤ x then (unfilterRow 4 bpp s prev stride).getD (x - bpp) 0 else 0)
            (prev.getD x 0)
            (if bpp ≤ x then prev.getD (x - bpp) 0 else 0)) % 256) ∧
      ((unfilterRow 1 bpp s prev stride).getD x 0 =
        (s.getD x 0 +
          (if bpp ≤ x then (unfilterRow 1 bpp s prev stride).getD (x - bpp) 0 else 0)) % 256) ∧
      ((unfilterRow 2 bpp s prev stride).getD x 0 =
        (s.getD x 0 + prev.getD x 0) % 256) ∧
      ((unfilterRow 3 bpp s prev stride).getD x 0 =
        (s.getD x 0 +
          ((if bpp ≤ x then (unfilterRow 3 bpp s prev stride).getD (x - bpp) 0 else 0) +
            prev.getD x 0) / 2) % 256)) ∧
    (∀ raw w h bpp, unfilter raw w h bpp =
      (unfilterRows bpp (w * bpp) h (List.replicate (w * bpp) 0) raw).map List.flatten) := by
  refine ⟨?_, ?_, fun raw w h bpp => rfl⟩
  · intro a b c
    simp only [paeth]
    by_cases h1 : (((a : Int) + b - c) - a).natAbs ≤ (((a : Int) + b - c) - b).natAbs ∧
        (((a : Int) + b - c) - a).natAbs ≤ (((a : Int) + b - c) - c).natAbs
    · rw [if_pos h1]
      exact ⟨Or.inl rfl, by omega, by omega, by omega, fun _ => rfl,
        fun hn _ => absurd h1 hn, fun hn _ => absurd h1 hn⟩
    · rw [if_neg h1]
      by_cases h2 : (((a : Int) + b - c) - b).natAbs ≤ (((a : Int) + b - c) - c).natAbs
      · rw [if_pos h2]
        exact ⟨Or.inr (Or.inl rfl), by omega, by omega, by omega,
          fun hh => absurd hh h1, fun _ _ => rfl, fun _ hn => absurd h2 hn⟩
      · rw [if_neg h2]
        exact ⟨Or.inr (Or.inr rfl), by omega, by omega, by omega,
          fun hh => absurd hh h1, fun _ hh => absurd hh h2, fun _ _ => rfl⟩
  · intro bpp s prev stride x hbpp hx
    exact ⟨unfilterRow_paeth bpp s prev stride x hbpp hx,
      unfilterRow_sub bpp s prev stride x hbpp hx,
      unfilterRow_up bpp s prev stride x hx,
      unfilterRow_avg bpp s prev stride x hbpp hx⟩

/-- C3 witness: the filter-type-4 recurrence applied to the concrete row
[10, 20] over an all-zero previous row. -/
theorem C3_witness :
    (unfilterRow 4 1 [10, 20] [0, 0] 2).getD 1 0 =
      ([10, 20].getD 1 0 +
        paeth (if 1 ≤ 1 then (unfilterRow 4 1 [10, 20] [0, 0] 2).getD (1 - 1) 0 else 0)
          ([0, 0].getD 1 0)
          (if 1 ≤ 1 then [0, 0].getD (1 - 1) 0 else 0)) % 256 :=
  (C3_filters.2.1 1 [10, 20] [0, 0] 2 1 (by decide) (by decide)).1

/-- The bits component of one Braille loop step: the dot's bit is OR-ed in
exactly when the window pixel is in bounds and dark. -/
theorem brailleStep_fst (img : RGBAImage) (tone : Nat → Nat) (cx cy : Nat)
    (st : Nat × Nat × Nat × Nat × Nat) (e : Nat × Nat × Nat) :
    (brailleStep img tone cx cy st e).1 =
      if brailleDot img tone (cx + e.1) (cy + e.2.1)
      then st.1 ||| (1 <<< (e.2.2 - 1)) else st.1 := by
  by_cases hd : brailleDot img tone (cx + e.1) (cy + e.2.1)
  · rw [if_pos hd]
    obtain ⟨h1, h2, h3⟩ := hd
    unfold brailleStep
    rw [if_neg (by omega : ¬ (img.w ≤ cx + e.1 ∨ img.h ≤ cy + e.2.1))]
    dsimp only
    rw [if_pos h3]
  · rw [if_neg hd]
    unfold brailleStep
    by_cases hoob : img.w ≤ cx + e.1 ∨ img.h ≤ cy + e.2.1
    · rw [if_pos hoob]
    · rw [if_neg hoob]
      push_neg at hoob
      have h3 : ¬ tone (luma (blendedPx img (cx + e.1) (cy + e.2.1)).1
          (blendedPx img (cx + e.1) (cy + e.2.1)).2.1
          (blendedPx img (cx + e.1) (cy + e.2.1)).2.2) < 128 :=
        fun hc => hd ⟨hoob.1, hoob.2, hc⟩
      dsimp only
      rw [if_neg h3]

theorem brailleStep_testBit (img : RGBAImage) (tone : Nat → Nat) (cx cy : Nat)
    (st : Nat × Nat × Nat × Nat × Nat) (e : Nat × Nat × Nat) (k : Nat) :
    Nat.testBit (brailleStep img tone cx cy st e).1 k =
      (Nat.testBit st.1 k ||
        (decide (brailleDot img tone (cx + e.1) (cy + e.2.1)) && decide (e.2.2 - 1 = k))) := by
  rw [brailleStep_fst]
  by_cases hd : brailleDot img tone (cx + e.1) (cy + e.2.1)
  · rw [if_pos hd, Nat.testBit_or, Nat.shiftLeft_eq, one_mul, Nat.testBit_two_pow]
    simp [hd]
  · rw [if_neg hd]
    simp [hd]

/-- The final dot bitmask has bit k set exactly when some table entry with
bit index k+1 hit an in-bounds dark pixel. -/
theorem brailleFold_testBit (img : RGBAImage) (tone : Nat → Nat) (cx cy : Nat)
    (l : List (Nat × Nat × Nat)) :
    ∀ (st : Nat × Nat × Nat × Nat × Nat) (k : Nat),
      Nat.testBit (l.foldl (brailleStep img tone cx cy) st).1 k =
        (Nat.testBit st.1 k ||
          l.any (fun e => decide (brailleDot img tone (cx + e.1) (cy + e.2.1)) &&
            decide (e.2.2 - 1 = k))) := by
  induction l with
  | nil => intro st k; simp
  | cons e l ih =>
    intro st k
    simp only [List.foldl_cons, List.any_cons, ih, brailleStep_testBit]
    rw [Bool.or_assoc]

theorem brailleCell_testBit (img : RGBAImage) (tone : Nat → Nat) (cx cy k : Nat) :
    Nat.testBit (brailleCell img tone cx cy).1 k =
      BRAILLE_BITS.any (fun e => decide (brailleDot img tone (cx + e.1) (cy + e.2.1)) &&
        decide (e.2.2 - 1 = k)) := by
  unfold brailleCell
  rw [brailleFold_testBit]
  simp

/-- C5: the Braille cell bitmask uses the fixed dot-to-bit table (bits
{1,2,3,7} for column 0 rows 0..3, {4,5,6,8} for column 1): bit (bit-1) of
the mask is set exactly when the entry's window pixel is in bounds and its
post-blend, tone-curved luma is below 128 (out-of-bounds pixels are
skipped); the emitted glyph is codepoint 0x2800 + bitmask; a fully dark
window gives 0xFF (U+28FF) and a fully light one 0x00 (U+2800). -/
theorem C5_braille (img : RGBAImage) (tone : Nat → Nat) (cx cy : Nat) :
    (∀ e ∈ BRAILLE_BITS,
      Nat.testBit (brailleCell img tone cx cy).1 (e.2.2 - 1) =
        decide (brailleDot img tone (cx + e.1) (cy + e.2.1))) ∧
    (∀ color_mode, brailleCellStr false color_mode (brailleCell img tone cx cy) =
      String.singleton (Char.ofNat (BRAILLE_BASE + (brailleCell img tone cx cy).1))) ∧
    ((∀ e ∈ BRAILLE_BITS, brailleDot img tone (cx + e.1) (cy + e.2.1)) →
      (brailleCell img tone cx cy).1 = 0xFF ∧
      (∀ color_mode, brailleCellStr false color_mode (brailleCell img tone cx cy) =
        String.singleton (Char.ofNat 0x28FF))) ∧
    ((∀ e ∈ BRAILLE_BITS, ¬ brailleDot img tone (cx + e.1) (cy + e.2.1)) →
      (brailleCell img tone cx cy).1 = 0x00 ∧
      (∀ color_mode, brailleCellStr false color_mode (brailleCell img tone cx cy) =
        String.singleton (Char.ofNat 0x2800))) := by
  refine ⟨?_, fun _ => rfl, ?_, ?_⟩
  · intro e he
    simp only [BRAILLE_BITS] at he
    fin_cases he <;>
      (rw [brailleCell_testBit]; simp +decide [BRAILLE_BITS])
  · intro hall
    have h1 : brailleDot img tone cx cy := by simpa using hall (0, 0, 1) (by decide)
    have h2 : brailleDot img tone cx (cy + 1) := by simpa using hall (0, 1, 2) (by decide)
    have h3 : brailleDot img tone cx (cy + 2) := by simpa using hall (0, 2, 3) (by decide)
    have h4 : brailleDot img tone cx (cy + 3) := by simpa using hall (0, 3, 7) (by decide)
    have h5 : brailleDot img tone (cx + 1) cy := by simpa using hall (1, 0, 4) (by decide)
    have h6 : brailleDot img tone (cx + 1) (cy + 1) := by
      simpa using hall (1, 1, 5) (by decide)
    have h7 : brailleDot img tone (cx + 1) (cy + 2) := by
      simpa using hall (1, 2, 6) (by decide)
    have h8 : brailleDot img tone (cx + 1) (cy + 3) := by
      simpa using hall (1, 3, 8) (by decide)
    have hval : (brailleCell img tone cx cy).1 = 0xFF := by
      apply Nat.eq_of_testBit_eq
      intro k
      rw [brailleCell_testBit]
      by_cases hk : k < 8
      · interval_cases k <;>
          simp +decide [BRAILLE_BITS, h1, h2, h3, h4, h5, h6, h7, h8]
      · have h255 : Nat.testBit 0xFF k = false :=
          Nat.testBit_lt_two_pow (lt_of_lt_of_le
            (show (0xFF : Nat) < 2 ^ 8 by norm_num)
            (Nat.pow_le_pow_right (by norm_num) (by omega)))
        rw [h255]
        have hne : ∀ c : Nat, c < 8 → (decide (c = k)) = false := fun c hc =>
          decide_eq_false (by omega)
        simp [BRAILLE_BITS, hne 0 (by norm_num), hne 1 (by norm_num), hne 2 (by norm_num),
          hne 3 (by norm_num), hne 4 (by norm_num), hne 5 (by norm_num),
          hne 6 (by norm_num), hne 7 (by norm_num)]
    refine ⟨hval, fun color_mode => ?_⟩
    show String.singleton (Char.ofNat (BRAILLE_BASE + (brailleCell img tone cx cy).1)) = _
    rw [hval]
    rfl
  · intro hnone
    have h1 : ¬ brailleDot img tone cx cy := by simpa using hnone (0, 0, 1) (by decide)
    have h2 : ¬ brailleDot img tone cx (cy + 1) := by
      simpa using hnone (0, 1, 2) (by decide)
    have h3 : ¬ brailleDot img tone cx (cy + 2) := by
      simpa using hnone (0, 2, 3) (by decide)
    have h4 : ¬ brailleDot img tone cx (cy + 3) := by
      simpa using hnone (0, 3, 7) (by decide)
    have h5 : ¬ brailleDot img tone (cx + 1) cy := by
      simpa using hnone (1, 0, 4) (by decide)
    have h6 : ¬ brailleDot img tone (cx + 1) (cy + 1) := by
      simpa using hnone (1, 1, 5) (by decide)
    have h7 : ¬ brailleDot img tone (cx + 1) (cy + 2) := by
      simpa using hnone (1, 2, 6) (by decide)
    have h8 : ¬ brailleDot img tone (cx + 1) (cy + 3) := by
      simpa using hnone (1, 3, 8) (by decide)
    have hval : (brailleCell img tone cx cy).1 = 0 := by
      apply Nat.eq_of_testBit_eq
      intro k
      rw [brailleCell_testBit]
      simp [BRAILLE_BITS, h1, h2, h3, h4, h5, h6, h7, h8]
    refine ⟨hval, fun color_mode => ?_⟩
    show String.singleton (Char.ofNat (BRAILLE_BASE + (brailleCell img tone cx cy).1)) = _
    rw [hval]
    rfl

/-- C5 witness: a fully dark 2-by-4 buffer gives bitmask 0xFF and a fully
white one 0x00. -/
theorem C5_witness :
    (brailleCell ⟨2, 4, List.flatten (List.replicate 8 [0, 0, 0, 255])⟩ id 0 0).1 = 0xFF ∧
    (brailleCell ⟨2, 4, List.flatten (List.replicate 8 [255, 255, 255, 255])⟩ id 0 0).1
      = 0x00 := by
  constructor
  · exact ((C5_braille ⟨2, 4, List.flatten (List.replicate 8 [0, 0, 0, 255])⟩ id 0 0).2.2.1
      (by intro e he; simp only [BRAILLE_BITS] at he; fin_cases he <;> decide)).1
  · exact ((C5_braille ⟨2, 4, List.flatten (List.replicate 8 [255, 255, 255, 255])⟩ id
      0 0).2.2.2
      (by intro e he; simp only [BRAILLE_BITS] at he; fin_cases he <;> decide)).1

theorem getD_byte_lt (l : List Nat) (h : ∀ b ∈ l, b < 256) (i : Nat) : l.getD i 0 < 256 := by
  by_cases hi : i < l.length
  · rw [List.getD_eq_getElem l 0 hi]
    exact h _ (List.getElem_mem hi)
  · rw [List.getD_eq_default l 0 (by omega)]
    norm_num

theorem blendChannel_le (a c : Nat) (ha : a ≤ 255) (hc : c ≤ 255) : blendChannel a c ≤ 255 := by
  unfold blendChannel
  have h1 : 2 * a * c ≤ 2 * a * 255 := Nat.mul_le_mul_left _ hc
  have h3 : 2 * a * c + 2 * (255 - a) * 255 + 255 ≤ 130305 := by omega
  calc (2 * a * c + 2 * (255 - a) * 255 + 255) / 510 ≤ 130305 / 510 :=
        Nat.div_le_div_right h3
    _ = 255 := by norm_num

theorem blendedPx_le (img : RGBAImage) (x y : Nat) (himg : ∀ b ∈ img.buf, b < 256) :
    (blendedPx img x y).1 ≤ 255 ∧ (blendedPx img x y).2.1 ≤ 255 ∧
    (blendedPx img x y).2.2 ≤ 255 := by
  have hr : (getPx img x y).1 ≤ 255 := by
    show img.buf.getD ((y * img.w + x) * 4) 0 ≤ 255
    have := getD_byte_lt img.buf himg ((y * img.w + x) * 4)
    omega
  have hg : (getPx img x y).2.1 ≤ 255 := by
    show img.buf.getD ((y * img.w + x) * 4 + 1) 0 ≤ 255
    have := getD_byte_lt img.buf himg ((y * img.w + x) * 4 + 1)
    omega
  have hb : (getPx img x y).2.2.1 ≤ 255 := by
    show img.buf.getD ((y * img.w + x) * 4 + 2) 0 ≤ 255
    have := getD_byte_lt img.buf himg ((y * img.w + x) * 4 + 2)
    omega
  have ha : (getPx img x y).2.2.2 ≤ 255 := by
    show img.buf.getD ((y * img.w + x) * 4 + 3) 0 ≤ 255
    have := getD_byte_lt img.buf himg ((y * img.w + x) * 4 + 3)
    omega
  have heq : blendedPx img x y = blendPx (getPx img x y).1 (getPx img x y).2.1
      (getPx img x y).2.2.1 (getPx img x y).2.2.2 := rfl
  rw [heq]
  unfold blendPx
  by_cases hne : (getPx img x y).2.2.2 ≠ 255
  · rw [if_pos hne]
    exact ⟨blendChannel_le _ _ ha hr, blendChannel_le _ _ ha hg, blendChannel_le _ _ ha hb⟩
  · rw [if_neg hne]
    exact ⟨hr, hg, hb⟩

theorem sum_map_le {α : Type} (l : List α) (f : α → Nat) (k : Nat)
    (h : ∀ x ∈ l, f x ≤ k) : (l.map f).sum ≤ l.length * k := by
  induction l with
  | nil => simp
  | cons hd tl ih =>
    simp only [List.map_cons, List.sum_cons, List.length_cons]
    have h1 := h hd (List.mem_cons_self _ _)
    have h2 := ih (fun x hx => h x (List.mem_cons_of_mem _ hx))
    have : (tl.length + 1) * k = tl.length * k + k := by ring
    omega

theorem avg_le {α : Type} (l : List α) (f : α → Nat) (h : ∀ x ∈ l, f x ≤ 255) :
    (l.map f).sum / l.length ≤ 255 := by
  rcases Nat.eq_zero_or_pos l.length with h0 | hpos
  · rw [h0]
    simp
  · have hsum : (l.map f).sum ≤ l.length * 255 := sum_map_le l f 255 h
    have hdiv := Nat.div_le_div_right (c := l.length) hsum
    rwa [Nat.mul_div_cancel_left _ hpos] at hdiv

theorem blockCellColor_le (img : RGBAImage) (x0 x1 y0 y1 : Nat)
    (himg : ∀ b ∈ img.buf, b < 256) :
    (blockCellColor img x0 x1 y0 y1).1 ≤ 255 ∧
    (blockCellColor img x0 x1 y0 y1).2.1 ≤ 255 ∧
    (blockCellColor img x0 x1 y0 y1).2.2 ≤ 255 :=
  ⟨avg_le (cellCoords x0 x1 y0 y1) _ (fun yx _ => (blendedPx_le img yx.2 yx.1 himg).1),
   avg_le (cellCoords x0 x1 y0 y1) _ (fun yx _ => (blendedPx_le img yx.2 yx.1 himg).2.1),
   avg_le (cellCoords x0 x1 y0 y1) _ (fun yx _ => (blendedPx_le img yx.2 yx.1 himg).2.2)⟩

theorem luma_le (r g b : Nat) (hr : r ≤ 255) (hg : g ≤ 255) (hb : b ≤ 255) :
    luma r g b ≤ 255 := by
  unfold luma
  have h1 : 299 * r + 587 * g + 114 * b + 500 ≤ 255500 := by omega
  calc (299 * r + 587 * g + 114 * b + 500) / 1000 ≤ 255500 / 1000 := Nat.div_le_div_right h1
    _ = 255 := by norm_num

theorem rampIndex_lt (Y L : Nat) (hY : Y ≤ 255) (hL : 1 ≤ L) : rampIndex Y L < L := by
  unfold rampIndex
  have h1 : 2 * Y * (L - 1) + 255 ≤ 510 * (L - 1) + 255 := by
    have := Nat.mul_le_mul_right (L - 1) (by omega : 2 * Y ≤ 510)
    omega
  have h2 := Nat.div_le_div_right (c := 510) h1
  have h3 : (510 * (L - 1) + 255) / 510 = L - 1 := by
    rw [Nat.add_comm, Nat.add_mul_div_left _ _ (by norm_num : (0 : Nat) < 510)]
    norm_num
  omega

theorem getD_mem_of_lt (l : List Char) (i : Nat) (d : Char) (hi : i < l.length) :
    l.getD i d ∈ l := by
  rw [List.getD_eq_getElem l d hi]
  exact List.getElem_mem hi

/-- The glyph of every block cell is a character of the (non-empty) ramp. -/
theorem blockCell_glyph_mem (img : RGBAImage) (rampStr : List Char) (tone : Nat → Nat)
    (cw ch cx cy : Nat) (himg : ∀ b ∈ img.buf, b < 256)
    (htone : ∀ y, y ≤ 255 → tone y ≤ 255) (hne : rampStr ≠ []) :
    (blockCell img rampStr tone cw ch cx cy).1 ∈ rampStr := by
  have hc := blockCellColor_le img (blockCellBounds img.w img.h cw ch cx cy).1
    (blockCellBounds img.w img.h cw ch cx cy).2.1
    (blockCellBounds img.w img.h cw ch cx cy).2.2.1
    (blockCellBounds img.w img.h cw ch cx cy).2.2.2 himg
  have hY := htone _ (luma_le _ _ _ hc.1 hc.2.1 hc.2.2)
  have hL : 1 ≤ rampStr.length := by
    cases rampStr with
    | nil => exact absurd rfl hne
    | cons c l => simp
  exact getD_mem_of_lt rampStr _ ' ' (rampIndex_lt _ _ hY hL)

theorem foldl_append_length (ls : List String) : ∀ acc : String,
    (ls.foldl (· ++ ·) acc).length = acc.length + (ls.map String.length).sum := by
  induction ls with
  | nil => intro acc; simp
  | cons s ls ih =>
    intro acc
    simp only [List.foldl_cons, ih, List.map_cons, List.sum_cons, String.length_append]
    omega

theorem foldl_append_data (ls : List String) : ∀ acc : String,
    (ls.foldl (· ++ ·) acc).data = acc.data ++ (ls.map String.data).flatten := by
  induction ls with
  | nil => intro acc; simp
  | cons s ls ih =>
    intro acc
    simp only [List.foldl_cons, ih, List.map_cons, List.flatten_cons]
    have hd : (acc ++ s).data = acc.data ++ s.data := rfl
    rw [hd, List.append_assoc]

theorem length_flatMap_const {α β : Type} (l : List α) (f : α → List β) (k : Nat)
    (h : ∀ x ∈ l, (f x).length = k) : (l.flatMap f).length = l.length * k := by
  induction l with
  | nil => simp
  | cons hd tl ih =>
    simp only [List.flatMap_cons, List.length_append, List.length_cons,
      ih (fun x hx => h x (List.mem_cons_of_mem _ hx)), h hd (List.mem_cons_self _ _)]
    ring

theorem join_length (ls : List String) :
    (String.join ls).length = (ls.map String.length).sum := by
  have h := foldl_append_length ls ""
  simpa [String.join] using h

theorem join_data (ls : List String) :
    (String.join ls).data = (ls.map String.data).flatten := by
  have h := foldl_append_data ls ""
  simpa [String.join] using h

theorem flatten_map_singleton {α β : Type} (l : List α) (f : α → β) :
    (l.map (fun x => [f x])).flatten = l.map f := by
  induction l with
  | nil => rfl
  | cons hd tl ih => simp [ih]

/-- With color off, each render_blocks line is exactly one glyph per cell
column. -/
theorem renderBlocksLine_data (img : RGBAImage) (rampStr : List Char) (tone : Nat → Nat)
    (color_mode : String) (cw ch cy : Nat) :
    (renderBlocksLine img rampStr tone false color_mode cw ch cy).data =
      (List.range cw).map (fun cx => (blockCell img rampStr tone cw ch cx cy).1) := by
  unfold renderBlocksLine
  rw [join_data, List.map_map]
  have hmap : (List.range cw).map (String.data ∘ fun cx => blockCellStr false color_mode
      (blockCell img rampStr tone cw ch cx cy)) =
      (List.range cw).map (fun cx => [(blockCell img rampStr tone cw ch cx cy).1]) := by
    apply List.map_congr_left
    intro x _
    rfl
  rw [hmap, flatten_map_singleton]

theorem renderBlocksLine_length (img : RGBAImage) (rampStr : List Char) (tone : Nat → Nat)
    (color_mode : String) (cw ch cy : Nat) :
    (renderBlocksLine img rampStr tone false color_mode cw ch cy).length = cw := by
  show (renderBlocksLine img rampStr tone false color_mode cw ch cy).data.length = cw
  rw [renderBlocksLine_data]
  simp

theorem resize_nn_byte_bound (img : RGBAImage) (tw th : Nat)
    (himg : ∀ b ∈ img.buf, b < 256) : ∀ b ∈ (img.resize_nn tw th).buf, b < 256 := by
  intro b hb
  simp only [RGBAImage.resize_nn, List.mem_flatMap] at hb
  obtain ⟨ty, _, hb⟩ := hb
  obtain ⟨tx, _, hb⟩ := hb
  simp only [List.mem_cons, List.not_mem_nil, or_false] at hb
  rcases hb with h | h | h | h <;> (subst h; exact getD_byte_lt img.buf himg _)

theorem cellCoords_length (x0 x1 y0 y1 : Nat) :
    (cellCoords x0 x1 y0 y1).length = (y1 - y0) * (x1 - x0) := by
  unfold cellCoords
  rw [length_flatMap_const _ _ (x1 - x0)]
  · simp
  · intro dy _
    simp

theorem scale_blocks_both (img : RGBAImage) (wc hc : Nat) (aspect : Option ℚ) (tc : Nat) :
    scale_to_cells img "blocks" (some wc) (some hc) aspect tc =
      (img.resize_nn (max 1 (wc * 1)) (max 1 (hc * 1)), wc, hc) := rfl

/-- C9: with an explicit cell grid of width wc ≥ 1 and height hc ≥ 1, a
byte-valued source image, a tone curve bounded on bytes, color off and a
non-empty effective ramp, render_blocks emits exactly hc newline-joined
lines of exactly wc characters, every character taken from the ramp, and no
averaging region of any cell is ever empty. -/
theorem C9_blocks_grid (img : RGBAImage) (wc hc : Nat) (ramp : String)
    (tone : Nat → Nat) (color_mode : String) (aspect : Option ℚ) (tc : Nat)
    (hwc : 1 ≤ wc) (hhc : 1 ≤ hc)
    (himg : ∀ b ∈ img.buf, b < 256)
    (htone : ∀ y, y ≤ 255 → tone y ≤ 255)
    (hramp : rampLookup ramp ≠ "") :
    (renderBlocksLines img (some wc) (some hc) ramp tone false color_mode aspect tc).length
      = hc ∧
    (∀ l ∈ renderBlocksLines img (some wc) (some hc) ramp tone false color_mode aspect tc,
      l.length = wc) ∧
    (∀ l ∈ renderBlocksLines img (some wc) (some hc) ramp tone false color_mode aspect tc,
      ∀ ch ∈ l.data, ch ∈ (rampLookup ramp).data) ∧
    (render_blocks img (some wc) (some hc) ramp tone false color_mode aspect tc =
      String.intercalate "\n"
        (renderBlocksLines img (some wc) (some hc) ramp tone false color_mode aspect tc)) ∧
    (∀ w h cw ch cx cy,
      0 < (cellCoords (blockCellBounds w h cw ch cx cy).1
        (blockCellBounds w h cw ch cx cy).2.1
        (blockCellBounds w h cw ch cx cy).2.2.1
        (blockCellBounds w h cw ch cx cy).2.2.2).length) := by
  have hs : scale_to_cells img "blocks" (some wc) (some hc) aspect tc =
      (img.resize_nn wc hc, wc, hc) := by
    rw [scale_blocks_both, show max 1 (wc * 1) = wc by omega, show max 1 (hc * 1) = hc by omega]
  have hrne : (rampLookup ramp).data ≠ [] := by
    intro hc0
    apply hramp
    have he : rampLookup ramp = String.mk (rampLookup ramp).data := rfl
    rw [hc0] at he
    exact he
  refine ⟨?_, ?_, ?_, rfl, ?_⟩
  · simp [renderBlocksLines, hs]
  · intro l hl
    simp only [renderBlocksLines, hs, List.mem_map] at hl
    obtain ⟨cy, _, rfl⟩ := hl
    exact renderBlocksLine_length _ _ _ _ _ _ _
  · intro l hl ch hch
    simp only [renderBlocksLines, hs, List.mem_map] at hl
    obtain ⟨cy, _, rfl⟩ := hl
    rw [renderBlocksLine_data] at hch
    simp only [List.mem_map] at hch
    obtain ⟨cx, _, rfl⟩ := hch
    have hmem := blockCell_glyph_mem (img.resize_nn wc hc) (rampLookup ramp).toList tone
      wc hc cx cy (resize_nn_byte_bound img wc hc himg) htone hrne
    exact hmem
  · intro w h cw ch cx cy
    rw [cellCoords_length]
    apply Nat.mul_pos
    · simp only [blockCellBounds]
      omega
    · simp only [blockCellBounds]
      omega

/-- C9 witness: the grid invariants instantiated on a 1-by-1 image and a
1-by-1 cell grid with the literal ramp " .#". -/
theorem C9_witness :
    (renderBlocksLines ⟨1, 1, [10, 20, 30, 255]⟩ (some 1) (some 1) " .#" id false "auto"
      none 80).length = 1 :=
  (C9_blocks_grid ⟨1, 1, [10, 20, 30, 255]⟩ 1 1 " .#" id "auto" none 80 (by norm_num)
    (by norm_num) (by decide) (fun y hy => hy) (by decide)).1

/-- C10: _unpack_bits always returns exactly w*spp samples; every sample the
bit stream can supply is the corresponding big-endian bit group scaled to
8 bits, and every sample past the end of the bit stream is 0. -/
theorem C10_unpack_bits (bytes : List Nat) (w bps spp : Nat)
    (_hbps : bps = 1 ∨ bps = 2 ∨ bps = 4) (hB : ∀ x ∈ bytes, x < 256) :
    (unpack_bits bytes w bps spp).length = w * spp ∧
    (∀ k < w * spp, (unpack_bits bytes w bps spp).getD k 0 =
      if (k + 1) * bps ≤ 8 * bytes.length then scaleSample bps (bitGroup bytes bps k) else 0) ∧
    (∀ v, scaleSample 1 v = if v = 0 then 0 else 255) ∧
    (∀ v, scaleSample 2 v = v * 85) ∧
    (∀ v, scaleSample 4 v = v * 17) := by
  have base := unpackGo_invariant bps (w * spp) bytes hB (bytes.length + w * spp) 0 []
    (Nat.zero_le _) (by simp) (by simp) (by simp) (by intro j hj; simp at hj)
  simp only [List.drop_zero, List.take_zero, List.length_nil, Nat.mul_zero, Nat.sub_zero,
    Nat.sub_self] at base
  have hbe : beNum ([] : List Nat) = 0 := rfl
  rw [hbe] at base
  obtain ⟨hlen, hval, hstop⟩ := base
  constructor
  · simp only [unpack_bits, List.length_append, List.length_replicate]
    omega
  refine ⟨?_, fun v => rfl, fun v => rfl, fun v => rfl⟩
  intro k hk
  by_cases hkl : k < (unpackGo bps (w * spp) (bytes.length + w * spp) bytes 0 0 []).length
  · simp only [unpack_bits]
    rw [List.getD_append _ _ 0 k hkl]
    exact hval k hkl
  · push_neg at hkl
    have hcond : ¬ (k + 1) * bps ≤ 8 * bytes.length := by
      rcases hstop with hs | hs
      · omega
      · have hmono : ((unpackGo bps (w * spp) (bytes.length + w * spp) bytes 0 0 []).length
            + 1) * bps ≤ (k + 1) * bps := Nat.mul_le_mul_right _ (by omega)
        omega
    rw [if_neg hcond]
    simp only [unpack_bits]
    rw [List.getD_append_right _ _ 0 _ hkl]
    simp [List.getD]

theorem resize_nn_length (img : RGBAImage) (tw th : Nat) :
    (img.resize_nn tw th).buf.length = tw * th * 4 := by
  simp only [RGBAImage.resize_nn]
  rw [length_flatMap_const _ _ (tw * 4)]
  · simp only [List.length_range]
    ring
  · intro ty _
    rw [length_flatMap_const _ _ 4]
    · simp [List.length_range]
    · intro tx _
      rfl

theorem pngPixel_length (mode : String) (vals : List Nat) : (pngPixel mode vals).length = 4 := by
  unfold pngPixel
  split_ifs <;> rfl

theorem pngRowSamples_length (mode : String) (spp depth w : Nat) (rowData : List Nat) :
    (pngRowSamples mode spp depth w rowData).length = w * 4 := by
  unfold pngRowSamples
  rw [length_flatMap_const _ _ 4]
  · simp [List.length_range]
  · intro x _
    split_ifs <;> exact pngPixel_length _ _

theorem pngRowsNonP_length (mode : String) (spp depth w row_len : Nat) :
    ∀ n scan, (pngRowsNonP mode spp depth w row_len n scan).length = n * (w * 4) := by
  intro n
  induction n with
  | zero => intro scan; simp [pngRowsNonP]
  | succ n ih =>
    intro scan
    simp only [pngRowsNonP, List.length_append, pngRowSamples_length, ih]
    ring

theorem palettePixel_length (pal : List (List Nat)) (alpha : List Nat) (idx : Nat)
    (px : List Nat) (h : palettePixel pal alpha idx = .ok px) : px.length = 4 := by
  unfold palettePixel at h
  split at h
  · injection h with h
    subst h
    rfl
  · exact Except.noConfusion h

theorem pngPixelsP_length (pal : List (List Nat)) (alpha smp : List Nat) :
    ∀ xs out, pngPixelsP pal alpha smp xs = .ok out → out.length = 4 * xs.length := by
  intro xs
  induction xs with
  | nil =>
    intro out h
    injection h with h
    subst h
    rfl
  | cons x xs ih =>
    intro out h
    cases hpx : palettePixel pal alpha (smp.getD x 0) with
    | error e =>
      simp only [pngPixelsP, hpx] at h
      exact Except.noConfusion h
    | ok px =>
      cases hrest : pngPixelsP pal alpha smp xs with
      | error e =>
        simp only [pngPixelsP, hpx, hrest] at h
        exact Except.noConfusion h
      | ok rest =>
        simp only [pngPixelsP, hpx, hrest, Except.ok.injEq] at h
        subst h
        simp only [List.length_append, List.length_cons]
        rw [palettePixel_length _ _ _ _ hpx, ih rest hrest]
        ring

theorem pngRowsP_length (pal : List (List Nat)) (alpha : List Nat) (w depth row_stride : Nat) :
    ∀ n scan out, pngRowsP pal alpha w depth row_stride n scan = .ok out →
      out.length = n * (w * 4) := by
  intro n
  induction n with
  | zero =>
    intro scan out h
    injection h with h
    subst h
    simp
  | succ n ih =>
    intro scan out h
    simp only [pngRowsP] at h
    cases hrow : pngPixelsP pal alpha
        (if depth < 8 then unpack_bits (scan.take row_stride) w depth 1
         else scan.take row_stride) (List.range w) with
    | error e => rw [hrow] at h; exact Except.noConfusion h
    | ok row =>
      rw [hrow] at h
      cases hrest : pngRowsP pal alpha w depth row_stride n (scan.drop row_stride) with
      | error e =>
        rw [hrest] at h
        exact Except.noConfusion h
      | ok rest =>
        rw [hrest] at h
        injection h with h
        subst h
        simp only [List.length_append]
        rw [pngPixelsP_length _ _ _ _ _ hrow, ih _ rest hrest]
        simp only [List.length_range]
        ring

theorem bmpRowPx_length (px : List Nat) (ro bpb w : Nat) :
    (bmpRowPx px ro bpb w).length = w * 4 := by
  unfold bmpRowPx
  rw [length_flatMap_const _ _ 4]
  · simp [List.length_range]
  · intro x _
    split_ifs <;> rfl

theorem bmpPixels_length (px : List Nat) (row w height : Nat) (topDown : Bool) (bpb : Nat) :
    (bmpPixels px row w height topDown bpb).length = height * (w * 4) := by
  unfold bmpPixels
  rw [length_flatMap_const _ _ (w * 4)]
  · simp [List.length_range]
  · intro rowi _
    exact bmpRowPx_length _ _ _ _

theorem ppmBuild_length (isP5 : Bool) (data : List Nat) (n : Nat) :
    (ppmBuild isP5 data n).length = n * 4 := by
  unfold ppmBuild
  rw [length_flatMap_const _ _ 4]
  · simp [List.length_range]
  · intro i _
    split_ifs <;> rfl

/-- Every successful decode through pngFromChunks keeps buf.length = w*h*4. -/
theorem pngFromChunks_length (inflate : List Nat → Except String (List Nat))
    (st : PngChunkState) (img : RGBAImage) (h : pngFromChunks inflate st = .ok (some img)) :
    img.buf.length = img.w * img.h * 4 := by
  unfold pngFromChunks at h
  cases hihdr : st.ihdr with
  | none => rw [hihdr] at h; exact Except.noConfusion h
  | some ip =>
    rw [hihdr] at h
    cases hp : parseIHDR ip with
    | error e => simp only [hp] at h; exact Except.noConfusion h
    | ok tup =>
      obtain ⟨w, ht, bd, ct, cmp, flt, il⟩ := tup
      simp only [hp] at h
      split at h
      · exact Except.noConfusion h
      · cases hspp : pngSpp ct with
        | error e => simp only [hspp] at h; exact Except.noConfusion h
        | ok spp =>
          simp only [hspp] at h
          cases hraw : inflate st.idat with
          | error e => simp only [hraw] at h; exact Except.noConfusion h
          | ok raw =>
            simp only [hraw] at h
            cases hscan : unfilter raw w ht (max 1 ((spp * bd + 7) / 8)) with
            | error e => simp only [hscan] at h; exact Except.noConfusion h
            | ok scan =>
              simp only [hscan] at h
              split at h
              · cases hplte : st.plte with
                | none => simp only [hplte] at h; exact Except.noConfusion h
                | some pl =>
                  simp only [hplte] at h
                  split at h
                  · exact Except.noConfusion h
                  · cases hrows : pngRowsP (chunk3 pl) (st.trns.getD [])
                        w bd ((w * bd + 7) / 8) ht scan with
                    | error e => simp only [hrows] at h; exact Except.noConfusion h
                    | ok out =>
                      simp only [hrows] at h
                      injection h with h
                      injection h with h
                      subst h
                      have hl := pngRowsP_length _ _ _ _ _ _ _ _ hrows
                      simp only [hl]
                      ring
              · injection h with h
                injection h with h
                subst h
                simp only [pngRowsNonP_length]
                ring

/-- Every successful load_png returns a buffer of exactly w*h*4 bytes. -/
theorem load_png_length (inflate : List Nat → Except String (List Nat)) (b : List Nat)
    (img : RGBAImage) (h : load_png inflate b = .ok (some img)) :
    img.buf.length = img.w * img.h * 4 := by
  unfold load_png at h
  by_cases hpre : ¬ PNG_SIG.isPrefixOf b
  · rw [if_pos hpre] at h
    simp at h
  · rw [if_neg hpre] at h
    exact pngFromChunks_length inflate _ img h

/-- Every successful load_bmp returns a buffer of exactly w*h*4 bytes. -/
theorem load_bmp_length (d : List Nat) (img : RGBAImage)
    (h : load_bmp d = .ok (some img)) : img.buf.length = img.w * img.h * 4 := by
  unfold load_bmp at h
  split at h
  · simp at h
  · dsimp only at h
    split at h
    · exact Except.noConfusion h
    · split at h
      · exact Except.noConfusion h
      · split at h
        · exact Except.noConfusion h
        · split at h
          · exact Except.noConfusion h
          · split at h
            · exact Except.noConfusion h
            · injection h with h
              injection h with h
              subst h
              simp only [bmpPixels_length]
              ring

/-- Every successful load_ppm_pgm returns a buffer of exactly w*h*4 bytes. -/
theorem load_ppm_length (b : List Nat) (img : RGBAImage)
    (h : load_ppm_pgm b = .ok (some img)) : img.buf.length = img.w * img.h * 4 := by
  unfold load_ppm_pgm at h
  dsimp only at h
  split at h
  · simp at h
  · split at h
    · exact Except.noConfusion h
    · exact Except.noConfusion h
    · exact Except.noConfusion h
    · split at h
      · exact Except.noConfusion h
      · repeat' split at h
        all_goals
          first
            | exact Except.noConfusion h
            | (injection h with h
               injection h with h
               subst h
               simp only [ppmBuild_length]
               try ring)

/-- C8: every operation producing a Pixel Buffer keeps the invariant
buf.length = w*h*4 for the recorded width and height: resize_nn always (and
records the target dimensions), and each loader on every successful
decode. -/
theorem C8_buffer_invariant :
    (∀ (img : RGBAImage) (tw th : Nat),
      (img.resize_nn tw th).buf.length = tw * th * 4 ∧
      (img.resize_nn tw th).w = tw ∧ (img.resize_nn tw th).h = th) ∧
    (∀ inflate b img, load_png inflate b = .ok (some img) →
      img.buf.length = img.w * img.h * 4) ∧
    (∀ b img, load_bmp b = .ok (some img) → img.buf.length = img.w * img.h * 4) ∧
    (∀ b img, load_ppm_pgm b = .ok (some img) → img.buf.length = img.w * img.h * 4) :=
  ⟨fun img tw th => ⟨resize_nn_length img tw th, rfl, rfl⟩,
   fun inflate b img h => load_png_length inflate b img h,
   fun b img h => load_bmp_length b img h,
   fun b img h => load_ppm_length b img h⟩

/-- C8 witness: the invariant instantiated on a concrete resize and on one
successful decode of each format. -/
theorem C8_witness :
    ((RGBAImage.mk 1 1 [1, 2, 3, 4]).resize_nn 2 3).buf.length = 2 * 3 * 4 ∧
    (RGBAImage.mk 1 1 [255, 255, 255, 255]).buf.length =
      (RGBAImage.mk 1 1 [255, 255, 255, 255]).w *
        (RGBAImage.mk 1 1 [255, 255, 255, 255]).h * 4 ∧
    (RGBAImage.mk 1 1 [30, 20, 10, 255]).buf.length =
      (RGBAImage.mk 1 1 [30, 20, 10, 255]).w * (RGBAImage.mk 1 1 [30, 20, 10, 255]).h * 4 ∧
    (RGBAImage.mk 2 2 [255, 0, 0, 255, 0, 255, 0, 255, 0, 0, 255, 255,
        255, 255, 255, 255]).buf.length =
      (RGBAImage.mk 2 2 [255, 0, 0, 255, 0, 255, 0, 255, 0, 0, 255, 255,
        255, 255, 255, 255]).w *
        (RGBAImage.mk 2 2 [255, 0, 0, 255, 0, 255, 0, 255, 0, 0, 255, 255,
          255, 255, 255, 255]).h * 4 :=
  ⟨(C8_buffer_invariant.1 ⟨1, 1, [1, 2, 3, 4]⟩ 2 3).1,
   C8_buffer_invariant.2.1 (inflateConst [0, 255, 255, 255]) pngWhite1x1 _ (by decide),
   C8_buffer_invariant.2.2.1 bmp1x1 _ (by decide),
   C8_buffer_invariant.2.2.2 ppm2x2 _ (by decide)⟩

/-- C10 witness: one byte 0xB0 unpacked as six 1-bit samples has length 6,
and its first sample is the scaled high bit 255. -/
theorem C10_witness :
    (unpack_bits [176] 6 1 1).length = 6 ∧
    (unpack_bits [176] 6 1 1).getD 0 0 = 255 := by
  have h := C10_unpack_bits [176] 6 1 1 (Or.inl rfl)
    (by intro x hx; simp at hx; omega)
  refine ⟨h.1, ?_⟩
  have h2 := h.2.1 0 (by omega)
  rw [h2]
  decide

end Img2Text

namespace Img2Text

theorem rdLE4_expand (d : List Nat) (p : Nat) :
    rdLE d p 4 = d.getD p 0 + d.getD (p + 1) 0 * 256 + d.getD (p + 2) 0 * 65536 +
      d.getD (p + 3) 0 * 16777216 := by
  simp [rdLE, List.range_succ]
  ring

theorem rdLE2_expand (d : List Nat) (p : Nat) :
    rdLE d p 2 = d.getD p 0 + d.getD (p + 1) 0 * 256 := by
  simp [rdLE, List.range_succ]

theorem encLE_length (n v : Nat) : (encLE n v).length = n := by
  induction n generalizing v with
  | zero => rfl
  | succ m ih => simp [encLE, ih]

theorem mkBMP_length (w : Nat) (hf : Int) (bpp : Nat) (pix : List Nat) :
    (mkBMP w hf bpp pix).length = 54 + pix.length := by
  simp [mkBMP, encInt32, encLE_length]
  omega

theorem mkBMP_rd10 (w : Nat) (hf : Int) (bpp : Nat) (pix : List Nat) :
    rdLE (mkBMP w hf bpp pix) 10 4 = 54 := by
  have g0 : (mkBMP w hf bpp pix).getD 10 0 = 54 := rfl
  have g1 : (mkBMP w hf bpp pix).getD 11 0 = 0 := rfl
  have g2 : (mkBMP w hf bpp pix).getD 12 0 = 0 := rfl
  have g3 : (mkBMP w hf bpp pix).getD 13 0 = 0 := rfl
  rw [rdLE4_expand, g0, g1, g2, g3]

theorem mkBMP_rd14 (w : Nat) (hf : Int) (bpp : Nat) (pix : List Nat) :
    rdLE (mkBMP w hf bpp pix) 14 4 = 40 := by
  have g0 : (mkBMP w hf bpp pix).getD 14 0 = 40 := rfl
  have g1 : (mkBMP w hf bpp pix).getD 15 0 = 0 := rfl
  have g2 : (mkBMP w hf bpp pix).getD 16 0 = 0 := rfl
  have g3 : (mkBMP w hf bpp pix).getD 17 0 = 0 := rfl
  rw [rdLE4_expand, g0, g1, g2, g3]

theorem mkBMP_rd18 (w : Nat) (hf : Int) (bpp : Nat) (pix : List Nat) (hw31 : w < 2 ^ 31) :
    rdLE (mkBMP w hf bpp pix) 18 4 = w := by
  have g0 : (mkBMP w hf bpp pix).getD 18 0 = ((w : Int) % 4294967296).toNat % 256 := rfl
  have g1 : (mkBMP w hf bpp pix).getD 19 0 = ((w : Int) % 4294967296).toNat / 256 % 256 := rfl
  have g2 : (mkBMP w hf bpp pix).getD 20 0 =
      ((w : Int) % 4294967296).toNat / 256 / 256 % 256 := rfl
  have g3 : (mkBMP w hf bpp pix).getD 21 0 =
      ((w : Int) % 4294967296).toNat / 256 / 256 / 256 % 256 := rfl
  rw [rdLE4_expand, g0, g1, g2, g3]
  omega

theorem mkBMP_rd26 (w : Nat) (hf : Int) (bpp : Nat) (pix : List Nat) :
    rdLE (mkBMP w hf bpp pix) 26 2 = 1 := by
  have g0 : (mkBMP w hf bpp pix).getD 26 0 = 1 := rfl
  have g1 : (mkBMP w hf bpp pix).getD 27 0 = 0 := rfl
  rw [rdLE2_expand, g0, g1]

theorem mkBMP_rd28 (w : Nat) (hf : Int) (bpp : Nat) (pix : List Nat) (hb : bpp < 256) :
    rdLE (mkBMP w hf bpp pix) 28 2 = bpp := by
  have g0 : (mkBMP w hf bpp pix).getD 28 0 = bpp % 256 := rfl
  have g1 : (mkBMP w hf bpp pix).getD 29 0 = bpp / 256 % 256 := rfl
  rw [rdLE2_expand, g0, g1]
  omega

theorem mkBMP_rd30 (w : Nat) (hf : Int) (bpp : Nat) (pix : List Nat) :
    rdLE (mkBMP w hf bpp pix) 30 4 = 0 := by
  have g0 : (mkBMP w hf bpp pix).getD 30 0 = 0 := rfl
  have g1 : (mkBMP w hf bpp pix).getD 31 0 = 0 := rfl
  have g2 : (mkBMP w hf bpp pix).getD 32 0 = 0 := rfl
  have g3 : (mkBMP w hf bpp pix).getD 33 0 = 0 := rfl
  rw [rdLE4_expand, g0, g1, g2, g3]

theorem mkBMP_s22 (w H : Nat) (hf : Int) (bpp : Nat) (pix : List Nat)
    (hH : 1 ≤ H) (hH31 : H < 2 ^ 31) (hhf : hf = (H : Int) ∨ hf = -(H : Int)) :
    sInt32 (rdLE (mkBMP w hf bpp pix) 22 4) = hf := by
  have g0 : (mkBMP w hf bpp pix).getD 22 0 = (hf % 4294967296).toNat % 256 := rfl
  have g1 : (mkBMP w hf bpp pix).getD 23 0 = (hf % 4294967296).toNat / 256 % 256 := rfl
  have g2 : (mkBMP w hf bpp pix).getD 24 0 = (hf % 4294967296).toNat / 256 / 256 % 256 := rfl
  have g3 : (mkBMP w hf bpp pix).getD 25 0 =
      (hf % 4294967296).toNat / 256 / 256 / 256 % 256 := rfl
  rw [rdLE4_expand, g0, g1, g2, g3]
  rcases hhf with rfl | rfl
  · have hv : ((H : Int) % 4294967296).toNat = H := by omega
    rw [hv]
    have hsum : H % 256 + H / 256 % 256 * 256 + H / 256 / 256 % 256 * 65536 +
        H / 256 / 256 / 256 % 256 * 16777216 = H := by omega
    rw [hsum, sInt32, if_pos (by exact_mod_cast hH31)]
  · have hv : ((-(H : Int)) % 4294967296).toNat = 4294967296 - H := by omega
    rw [hv]
    have hsum : (4294967296 - H) % 256 + (4294967296 - H) / 256 % 256 * 256 +
        (4294967296 - H) / 256 / 256 % 256 * 65536 +
        (4294967296 - H) / 256 / 256 / 256 % 256 * 16777216 = 4294967296 - H := by omega
    rw [hsum, sInt32, if_neg (by omega)]
    omega

theorem load_bmp_mkBMP (w H : Nat) (hf : Int) (bpp : Nat) (pix : List Nat)
    (hw : 1 ≤ w) (hH : 1 ≤ H) (hw31 : w < 2 ^ 31) (hH31 : H < 2 ^ 31)
    (hbpp : bpp = 24 ∨ bpp = 32)
    (hhf : hf = (H : Int) ∨ hf = -(H : Int))
    (hlen : ((bpp * w + 31) / 32) * 4 * H ≤ pix.length) :
    load_bmp (mkBMP w hf bpp pix) =
      .ok (some ⟨w, H, bmpPixels pix (((bpp * w + 31) / 32) * 4) w H (decide (hf < 0))
        (bpp / 8)⟩) := by
  have eabs : hf.natAbs = H := by rcases hhf with rfl | rfl <;> simp
  have hdrop : (mkBMP w hf bpp pix).drop 54 = pix := rfl
  have h54 : ¬((mkBMP w hf bpp pix).length < 54 ∨
      (mkBMP w hf bpp pix).take 2 ≠ [66, 77]) := by
    push_neg
    refine ⟨?_, rfl⟩
    rw [mkBMP_length]
    omega
  rw [load_bmp, if_neg h54]
  dsimp only
  rw [mkBMP_rd14, mkBMP_rd18 w hf bpp pix hw31,
    mkBMP_s22 w H hf bpp pix hH hH31 hhf, mkBMP_rd26,
    mkBMP_rd28 w hf bpp pix (by rcases hbpp with rfl | rfl <;> omega), mkBMP_rd30,
    mkBMP_rd10, eabs, hdrop]
  rw [if_neg (by omega)]
  rw [if_neg (by simp)]
  rw [if_neg (by tauto)]
  have hsw : sInt32 w = (w : Int) := by rw [sInt32, if_pos (by exact_mod_cast hw31)]
  rw [hsw]
  rw [if_neg (by omega)]
  simp only [Int.toNat_natCast]
  rw [if_neg ?hg]
  case hg =>
    push_neg
    intro _ _
    have h1 : w * (bpp / 8) ≤ ((bpp * w + 31) / 32) * 4 := by
      rcases hbpp with rfl | rfl <;> omega
    calc (H - 1) * (((bpp * w + 31) / 32) * 4) + w * (bpp / 8)
        ≤ (H - 1) * (((bpp * w + 31) / 32) * 4) + ((bpp * w + 31) / 32) * 4 :=
          Nat.add_le_add_left h1 _
      _ = H * (((bpp * w + 31) / 32) * 4) := by
          conv_rhs => rw [show H = (H - 1) + 1 by omega]
          rw [Nat.succ_mul]
      _ ≤ pix.length := by rw [mul_comm]; exact hlen


theorem flatten_length_const (rows : List (List Nat)) (k : Nat)
    (h : ∀ r ∈ rows, r.length = k) : rows.flatten.length = rows.length * k := by
  induction rows with
  | nil => simp
  | cons r t ih =>
    simp only [List.flatten_cons, List.length_append, List.length_cons,
      h r (by simp), ih (fun s hs => h s (by simp [hs])), Nat.succ_mul]
    omega

theorem flatten_getD (rows : List (List Nat)) (k : Nat)
    (h : ∀ r ∈ rows, r.length = k) (i j : Nat) (hj : j < k) (hi : i < rows.length) :
    rows.flatten.getD (i * k + j) 0 = (rows.getD i []).getD j 0 := by
  induction rows generalizing i with
  | nil => simp at hi
  | cons r t ih =>
    cases i with
    | zero =>
      have hr : r.length = k := h r (by simp)
      simp only [List.flatten_cons, Nat.zero_mul, Nat.zero_add, List.getD_cons_zero]
      rw [List.getD_append _ _ _ _ (by omega)]
    | succ i' =>
      have hr : r.length = k := h r (by simp)
      simp only [List.flatten_cons, List.getD_cons_succ]
      rw [List.getD_append_right _ _ _ _ (by nlinarith [Nat.succ_mul i' k])]
      have harith : (i' + 1) * k + j - r.length = i' * k + j := by
        rw [hr, Nat.succ_mul]
        omega
      rw [harith]
      exact ih (fun s hs => h s (by simp [hs])) i' (by simpa using hi)

theorem flatMap_congr {α β : Type} (l : List α) (f g : α → List β)
    (h : ∀ a ∈ l, f a = g a) : l.flatMap f = l.flatMap g := by
  induction l with
  | nil => rfl
  | cons a t ih =>
    simp only [List.flatMap_cons, h a (by simp), ih (fun b hb => h b (by simp [hb]))]

theorem bmpRowPx_flatten (rows : List (List Nat)) (k bpb w sy : Nat)
    (hk : ∀ r ∈ rows, r.length = k) (hsy : sy < rows.length)
    (hwk : w * bpb ≤ k) (hbpb : bpb = 3 ∨ bpb = 4) :
    bmpRowPx rows.flatten (sy * k) bpb w = bmpRowPx (rows.getD sy []) 0 bpb w := by
  unfold bmpRowPx
  refine flatMap_congr _ _ _ (fun x hx => ?_)
  have hxw : x < w := List.mem_range.mp hx
  rcases hbpb with rfl | rfl
  · rw [if_pos rfl, if_pos rfl]
    have i0 : sy * k + x * 3 + 2 = sy * k + (x * 3 + 2) := by omega
    have i1 : sy * k + x * 3 + 1 = sy * k + (x * 3 + 1) := by omega
    have i2 : (0 : Nat) + x * 3 + 2 = x * 3 + 2 := by omega
    have i3 : (0 : Nat) + x * 3 + 1 = x * 3 + 1 := by omega
    have i4 : (0 : Nat) + x * 3 = x * 3 := by omega
    rw [i0, i1, i2, i3, i4,
      flatten_getD rows k hk sy (x * 3 + 2) (by omega) hsy,
      flatten_getD rows k hk sy (x * 3 + 1) (by omega) hsy,
      flatten_getD rows k hk sy (x * 3) (by omega) hsy]
  · rw [if_neg (by omega), if_neg (by omega)]
    have i0 : sy * k + x * 4 + 2 = sy * k + (x * 4 + 2) := by omega
    have i1 : sy * k + x * 4 + 1 = sy * k + (x * 4 + 1) := by omega
    have i5 : sy * k + x * 4 + 3 = sy * k + (x * 4 + 3) := by omega
    have i2 : (0 : Nat) + x * 4 + 2 = x * 4 + 2 := by omega
    have i3 : (0 : Nat) + x * 4 + 1 = x * 4 + 1 := by omega
    have i4 : (0 : Nat) + x * 4 = x * 4 := by omega
    rw [i0, i1, i5, i2, i3, i4,
      flatten_getD rows k hk sy (x * 4 + 2) (by omega) hsy,
      flatten_getD rows k hk sy (x * 4 + 1) (by omega) hsy,
      flatten_getD rows k hk sy (x * 4) (by omega) hsy,
      flatten_getD rows k hk sy (x * 4 + 3) (by omega) hsy]

theorem bmpPixels_flip (rows : List (List Nat)) (k bpb w : Nat)
    (hk : ∀ r ∈ rows, r.length = k) (hwk : w * bpb ≤ k) (hbpb : bpb = 3 ∨ bpb = 4) :
    bmpPixels rows.flatten k w rows.length true bpb
      = bmpPixels rows.reverse.flatten k w rows.length false bpb := by
  unfold bmpPixels
  refine flatMap_congr _ _ _ (fun rowi hrm => ?_)
  have hri : rowi < rows.length := List.mem_range.mp hrm
  simp only [if_pos, if_neg, Bool.false_eq_true, ↓reduceIte]
  have hkrev : ∀ r ∈ rows.reverse, r.length = k := fun r hr =>
    hk r (List.mem_reverse.mp hr)
  have hsyrev : rows.length - 1 - rowi < rows.reverse.length := by
    rw [List.length_reverse]
    omega
  rw [bmpRowPx_flatten rows k bpb w rowi hk hri hwk hbpb,
    bmpRowPx_flatten rows.reverse k bpb w (rows.length - 1 - rowi) hkrev hsyrev hwk hbpb]
  congr 1
  have h1 : rows.length - 1 - rowi < rows.reverse.length := hsyrev
  rw [List.getD_eq_getElem _ _ h1, List.getD_eq_getElem _ _ hri,
    List.getElem_reverse]
  congr 1
  omega


/-- C7: decoding a BMP file stored bottom-to-top (positive height field, rows
physically reversed in the file) and decoding a BMP file with the same pixel
content stored top-to-bottom (negative height field) produce identical results,
and both succeed with the pixel buffer in top-to-bottom row order. -/
theorem C7_bmp_flip (w H bpp : Nat) (rows : List (List Nat))
    (hw : 1 ≤ w) (hH : 1 ≤ H) (hw31 : w < 2 ^ 31) (hH31 : H < 2 ^ 31)
    (hbpp : bpp = 24 ∨ bpp = 32)
    (hlen : rows.length = H)
    (hrow : ∀ r ∈ rows, r.length = ((bpp * w + 31) / 32) * 4) :
    load_bmp (mkBMP w (H : Int) bpp rows.reverse.flatten)
      = load_bmp (mkBMP w (-(H : Int)) bpp rows.flatten)
    ∧ load_bmp (mkBMP w (-(H : Int)) bpp rows.flatten)
      = .ok (some ⟨w, H, bmpPixels rows.flatten (((bpp * w + 31) / 32) * 4) w H true
          (bpp / 8)⟩) := by
  have hkrev : ∀ r ∈ rows.reverse, r.length = ((bpp * w + 31) / 32) * 4 := fun r hr =>
    hrow r (List.mem_reverse.mp hr)
  have hlenrev : ((bpp * w + 31) / 32) * 4 * H ≤ rows.reverse.flatten.length := by
    rw [flatten_length_const rows.reverse _ hkrev, List.length_reverse, hlen, mul_comm]
  have hlenfwd : ((bpp * w + 31) / 32) * 4 * H ≤ rows.flatten.length := by
    rw [flatten_length_const rows _ hrow, hlen, mul_comm]
  have hup := load_bmp_mkBMP w H (H : Int) bpp rows.reverse.flatten hw hH hw31 hH31 hbpp
    (Or.inl rfl) hlenrev
  have hdn := load_bmp_mkBMP w H (-(H : Int)) bpp rows.flatten hw hH hw31 hH31 hbpp
    (Or.inr rfl) hlenfwd
  have hdup : decide ((H : Int) < 0) = false := decide_eq_false (by omega)
  have hddn : decide (-(H : Int) < 0) = true := decide_eq_true (by omega)
  rw [hdup] at hup
  rw [hddn] at hdn
  have hflip : bmpPixels rows.flatten (((bpp * w + 31) / 32) * 4) w H true (bpp / 8)
      = bmpPixels rows.reverse.flatten (((bpp * w + 31) / 32) * 4) w H false (bpp / 8) := by
    have hwk : w * (bpp / 8) ≤ ((bpp * w + 31) / 32) * 4 := by
      rcases hbpp with rfl | rfl <;> omega
    have hbpb : bpp / 8 = 3 ∨ bpp / 8 = 4 := by rcases hbpp with rfl | rfl <;> omega
    have := bmpPixels_flip rows (((bpp * w + 31) / 32) * 4) (bpp / 8) w hrow hwk hbpb
    rw [hlen] at this
    exact this
  refine ⟨?_, hdn⟩
  rw [hup, hdn, hflip]

theorem C7_witness :
    load_bmp (mkBMP 1 ((2 : Nat) : Int) 24
        ([[1, 2, 3, 9], [4, 5, 6, 8]] : List (List Nat)).reverse.flatten)
      = load_bmp (mkBMP 1 (-((2 : Nat) : Int)) 24
        ([[1, 2, 3, 9], [4, 5, 6, 8]] : List (List Nat)).flatten) :=
  (C7_bmp_flip 1 2 24 [[1, 2, 3, 9], [4, 5, 6, 8]] (by decide) (by decide) (by decide)
    (by decide) (Or.inl rfl) (by decide) (by decide)).1

end Img2Text
